import Mathlib

/-!
# Verification of the VideoPlaylist timed-event scheduler

Shallow embedding of `src/VideoPlaylist.js` (class `VideoPlaylist`).

Modelling conventions:
* JS numbers (times, durations, positions) are integers (`ℤ`): the
  scheduler only ever adds, subtracts, compares and takes minima of
  times — no operation divides — so the embedding is exact on
  integral-second playlists and every general theorem below is
  agnostic to the choice of ordered ring.
* An event `time` field is either a number or the string sentinel `'end'`
  (`EvTime.num` / `EvTime.endS`).  JS relational comparison `'end' >= x`
  is `false` (NaN), modelled by `timeGE`.
* Fields that are `undefined` until assigned (`videoDuration`,
  `actionIndex`, `pauseIndex`, `requestedCurrentTime`) are `Option`s;
  JS comparisons against `undefined` are `false`, modelled by `cursorLE`
  / `cursorLT`.
* DOM payloads (title content, CSS class names) are abstracted to
  numeric identifiers; they never influence control flow.
* Distinct JS object references in the `actions` / `pauses` arrays are
  modelled by `List.Nodup` hypotheses (JS `Array.prototype.indexOf`
  uses reference equality; a playlist built from distinct literals is
  a `Nodup` list of values here).
* Side effects observable from outside (emitted events, play/pause
  commands to the media element) are collected in a trace
  (`List Ev`).  Where the JS code would throw a `TypeError`
  (dereferencing `undefined`), the model emits `Ev.jsError`.
* The mutually recursive call web (`update` ↔ `executeActionsOrPauses`
  ↔ `next` ↔ `start` …) is embedded as a single fuel-indexed
  interpreter `run`; all safety theorems hold for every fuel value and
  executions of interest are reached with explicitly sufficient fuel.
-/

namespace VideoPlaylist

/-- Event trigger time: a number of seconds or the `'end'` sentinel. -/
inductive EvTime
  | num (t : ℤ)
  | endS
deriving DecidableEq, Repr

/-- An action (`@typedef Action`): fired at `time`, shows an optional
title and toggles classes.  Payloads abstracted to ids. -/
structure Action where
  time : EvTime
  title : Option Nat := none
  titleDuration : Option ℤ := none
  classAdd : List Nat := []
  classRemove : List Nat := []
deriving DecidableEq, Repr

/-- A pause (`@typedef Pause`): at `time` the video pauses for
`duration` seconds with reversible effects. -/
structure Pause where
  time : EvTime
  duration : ℤ
  title : Option Nat := none
  classAdd : List Nat := []
  classRemove : List Nat := []
deriving DecidableEq, Repr

/-- A playlist entry (`@typedef MediaItem`).  `video : Bool` records
whether a media locator is present (JS truthiness of `entry.video`);
`videoDuration` is `none` until metadata has loaded. -/
structure Entry where
  video : Bool := true
  videoDuration : Option ℤ := none
  actions : List Action := []
  pauses : List Pause := []
deriving DecidableEq, Repr

/-- A preload slot (an element of `this.preloadList` / `this.current`):
the claimed playlist index, the media element's position, and the
per-clip cursors (JS: fields created on the object by `start`,
`undefined` beforehand). -/
structure Slot where
  index : Option Nat := none
  videoTime : ℤ := 0
  actionIndex : Option Nat := none
  pauseIndex : Option Nat := none
deriving DecidableEq, Repr

/-- The `this.activePause` record: the captured entry and pause, and
`armed`, the number of seconds until its `_pauseEnd` timer fires
(JS: the `setTimeout` delay; the wall-clock anchor `start` is
recoverable as `now - (pause.duration - armed)`). -/
structure ActivePause where
  entry : Entry
  pause : Pause
  armed : ℤ
deriving DecidableEq, Repr

/-- The armed `this.currentTimeout`: the captured entry, the captured
`time` argument for `executeActionsOrPauses`, and the delay. -/
structure TimeoutInfo where
  entry : Entry
  time : ℤ
  delay : ℤ
deriving DecidableEq, Repr

/-- The whole `VideoPlaylist` instance state. -/
structure PL where
  list : List Entry
  preloadIndex : Nat := 0
  preloadList : List Slot := []
  current : Option Slot := none
  currentTimeout : Option TimeoutInfo := none
  activePause : Option ActivePause := none
  actionTime : EvTime := EvTime.num 0
  requestedCurrentTime : Option ℤ := none
deriving DecidableEq, Repr

/-- Observable events: emitter notifications, media-element commands,
and `jsError` marking a point where the JS code would throw.
Emitted per-clip events carry the current slot's `index` as a tag. -/
inductive Ev
  | action (clip : Option Nat) (i : Nat)
  | pauseStartE (clip : Option Nat) (i : Nat)
  | pauseEndE (clip : Option Nat) (i : Nat)
  | ended
  | endedAll
  | nextE (i : Nat)
  | playCmd
  | pauseCmd
  | jsError
deriving DecidableEq, Repr

/-- JS `x >= pos` for an event time `x` against a numeric position:
`'end' >= pos` is `false`. -/
def timeGE (t : EvTime) (pos : ℤ) : Bool :=
  match t with
  | .num x => pos ≤ x
  | .endS => false

/-- JS `index >= cursor` where the cursor may be `undefined`
(`undefined` comparisons are `false`). -/
def cursorLE (c : Option Nat) (i : Nat) : Bool :=
  match c with
  | none => false
  | some v => v ≤ i

/-- JS `index < cursor` where the cursor may be `undefined`. -/
def cursorLT (i : Nat) (c : Option Nat) : Bool :=
  match c with
  | none => false
  | some v => i < v

/-- JS `Array.prototype.filter` whose callback also receives the
element index. -/
def filterIdx (f : α → Nat → Bool) (l : List α) : List α :=
  (l.enum.filter (fun x => f x.2 x.1)).map (·.2)

/-- The index/value pairs retained by an indexed filter (used to
reason about `filterIdx`). -/
def filterIdxP (f : α → Nat → Bool) (l : List α) : List (Nat × α) :=
  l.enum.filter (fun x => f x.2 x.1)

/-- `executeActionsOrPauses` line 329: the due actions at `time`. -/
def dueActions (e : Entry) (aIdx : Option Nat) (t : EvTime) : List Action :=
  filterIdx (fun a i => a.time == t && cursorLE aIdx i) e.actions

/-- `executeActionsOrPauses` line 330: the due pauses at `time`. -/
def duePauses (e : Entry) (pIdx : Option Nat) (t : EvTime) : List Pause :=
  filterIdx (fun p i => p.time == t && cursorLE pIdx i) e.pauses

/-- `update` line 296: remaining actions not before the position. -/
def nextActionsF (e : Entry) (aIdx : Option Nat) (pos : ℤ) : List Action :=
  filterIdx (fun a i => timeGE a.time pos && cursorLE aIdx i) e.actions

/-- `update` line 297: remaining pauses not before the position. -/
def nextPausesF (e : Entry) (pIdx : Option Nat) (pos : ℤ) : List Pause :=
  filterIdx (fun p i => timeGE p.time pos && cursorLE pIdx i) e.pauses

/-- Numeric value of an event time (`'end'` has none). -/
def evNum : EvTime → Option ℤ
  | .num x => some x
  | .endS => none

/-- JS `Math.min` over two values that may be `Infinity`
(`none` plays the role of `Infinity`; `'end'` cannot reach here
because `timeGE` already rejected it). -/
def optMin : Option ℤ → Option ℤ → Option ℤ
  | none, b => b
  | a, none => a
  | some a, some b => some (min a b)

/-- `update` lines 296-302: the next wake-up time, `none` standing for
`Infinity` (no upcoming event). -/
def nextWakeTime (e : Entry) (aIdx pIdx : Option Nat) (pos : ℤ) : Option ℤ :=
  optMin ((nextActionsF e aIdx pos).head?.bind (fun a => evNum a.time))
         ((nextPausesF e pIdx pos).head?.bind (fun p => evNum p.time))

/-- `durationIndex` (lines 472-485): raw video duration plus the sum of
all pause durations, `null` while the duration is unknown. -/
def durationIndex (p : PL) (index : Nat) : Option ℤ :=
  match p.list.get? index with
  | none => none
  | some entry =>
    match entry.videoDuration with
    | none => none
    | some d => some (d + (entry.pauses.map (·.duration)).sum)

/-- JS `pos >= t` for an event time `t` (used by `passedScan` as
`videoTime >= pause.time`; `'end'` compares false). -/
def timeLE (t : EvTime) (pos : ℤ) : Bool :=
  match t with
  | .num x => x ≤ pos
  | .endS => false

/-- `set currentCurrentTime` lines 553-561: walk the pause list with a
mutating `videoTime`; returns the retained (passed) pauses and the
final `videoTime`. -/
def passedScan (t0 : ℤ) : List Pause → List Pause × ℤ
  | [] => ([], t0)
  | pz :: rest =>
    if timeLE pz.time t0 then
      let r := passedScan (t0 - pz.duration) rest
      (pz :: r.1, r.2)
    else
      passedScan t0 rest

/-- JS truthiness of `this.requestedCurrentTime` (`null`/`undefined`
and `0` are falsy). -/
def jsTruthy : Option ℤ → Bool
  | none => false
  | some v => v != 0

/-- `get currentCurrentTime` (lines 511-531).  `sincePause` is the
wall-clock time elapsed since the active pause was (re)entered, so
`now - activePause.start = (pause.duration - armed) + sincePause`. -/
def currentCurrentTimeGet (p : PL) (sincePause : ℤ) : Option ℤ :=
  match p.current with
  | none => none
  | some slot =>
    match slot.index.bind (p.list.get? ·) with
    | none => none
    | some e =>
      let passed := filterIdx (fun _ i => cursorLT i slot.pauseIndex) e.pauses
      match p.activePause with
      | some ap =>
        some (slot.videoTime + ((ap.pause.duration - ap.armed) + sincePause)
              + ((passed.dropLast.map (·.duration)).sum))
      | none => some (slot.videoTime + ((passed.map (·.duration)).sum))

/-- `get currentTime` (lines 587-608): current clip position plus the
full `durationIndex` of every earlier clip (JS `total + null`
coerces `null` to 0, hence `getD 0`). -/
def currentTimeGet (p : PL) (sincePause : ℤ) : Option ℤ :=
  match p.current with
  | none => some 0
  | some slot =>
    match slot.index.bind (p.list.get? ·) with
    | none => none
    | some _ =>
      let cct := (currentCurrentTimeGet p sincePause).getD 0
      let prior := (List.range (slot.index.getD 0)).map
        (fun j => (durationIndex p j).getD 0)
      some (cct + prior.sum)

/-- Apply a function to the `this.current` slot, if any. -/
def modifySlot (p : PL) (f : Slot → Slot) : PL :=
  { p with current := p.current.map f }

/-- `this.current.video.currentTime = v`. -/
def setVideoTime (p : PL) (v : ℤ) : PL :=
  modifySlot p (fun s => { s with videoTime := v })

/-- `executeActionsOrPauses` lines 332-345: `actions.forEach`.  For each
due action the cursor is set to `entry.actions.indexOf(action) + 1`
and then the `action` notification (with its title/class effects) is
emitted. -/
def fireActions (e : Entry) (tag : Option Nat) : List Action → PL → PL × List Ev
  | [], p => (p, [])
  | a :: rest, p =>
    let p1 := modifySlot p
      (fun s => { s with actionIndex := some (e.actions.indexOf a + 1) })
    let r := fireActions e tag rest p1
    (r.1, Ev.action tag (e.actions.indexOf a) :: r.2)

/-- `_pauseStart` (lines 363-390): pause the video, advance the pause
cursor, create `activePause` and arm its timer for
`duration === null ? pause.duration : duration` seconds. -/
def pauseStartF (e : Entry) (pz : Pause) (durOpt : Option ℤ) (p : PL) :
    PL × List Ev :=
  let tag := p.current.bind (·.index)
  let p1 := modifySlot p
    (fun s => { s with pauseIndex := some (e.pauses.indexOf pz + 1) })
  let ap : ActivePause := ⟨e, pz, durOpt.getD pz.duration⟩
  let p2 := { p1 with activePause := some ap }
  (p2, [Ev.pauseCmd, Ev.pauseStartE tag (e.pauses.indexOf pz)])

/-- `preload` (lines 204-224): assign each unclaimed slot the next
playlist index; past the end the slot stays unclaimed (but
`preloadIndex` was incremented).  A silent entry (no `video`) gets
`videoDuration = 0` written back into the list; otherwise the media
element is given a new source (resetting its position). -/
def preloadSlots (len : Nat) : List Slot → Nat → List Entry →
    List Slot × Nat × List Entry
  | [], pi, l => ([], pi, l)
  | s :: rest, pi, l =>
    match s.index with
    | some _ =>
      let r := preloadSlots len rest pi l
      (s :: r.1, r.2.1, r.2.2)
    | none =>
      let idx := pi
      let pi' := pi + 1
      if idx < len then
        match l.get? idx with
        | some e =>
          if e.video then
            let r := preloadSlots len rest pi' l
            ({ s with index := some idx, videoTime := 0 } :: r.1, r.2.1, r.2.2)
          else
            let l' := l.set idx { e with videoDuration := some 0 }
            let r := preloadSlots len rest pi' l'
            ({ s with index := some idx } :: r.1, r.2.1, r.2.2)
        | none =>
          let r := preloadSlots len rest pi' l
          ({ s with index := some idx } :: r.1, r.2.1, r.2.2)
      else
        let r := preloadSlots len rest pi' l
        ({ s with index := none } :: r.1, r.2.1, r.2.2)

/-- The `preload` method applied to the whole state. -/
def preloadF (p : PL) : PL :=
  let r := preloadSlots p.list.length p.preloadList p.preloadIndex p.list
  { p with preloadList := r.1, preloadIndex := r.2.1, list := r.2.2 }

/-- `set index` lines 676-680: shift preloaders (unclaiming them) until
the head holds the target index; returns (kept, skipped). -/
def rotScan (i : Nat) : List Slot → List Slot × List Slot
  | [] => ([], [])
  | s :: rest =>
    if s.index = some i then (s :: rest, [])
    else
      let r := rotScan i rest
      (r.1, { s with index := none } :: r.2)

/-- Result of the `set currentTime` scan (lines 619-633): either a clip
whose duration is still unknown was hit, or the target clip and the
remaining in-clip time were found (`i = list.length` when the target
is past the whole playlist). -/
inductive SeekRes
  | unknownDur (rest : ℤ) (i : Nat)
  | here (rest : ℤ) (i : Nat)
deriving DecidableEq, Repr

/-- The `set currentTime` loop over clip durations, written with an
explicit iteration bound (the loop body runs at most
`list.length - i` times before `i` leaves the range). -/
def seekScanAux (p : PL) : Nat → Nat → ℤ → SeekRes
  | 0, i, rest => .here rest i
  | n + 1, i, rest =>
    if i < p.list.length then
      match durationIndex p i with
      | none => .unknownDur rest i
      | some cd =>
        if rest - cd < 0 then .here rest i
        else seekScanAux p n (i + 1) (rest - cd)
    else
      .here rest i

/-- The `set currentTime` loop over clip durations. -/
def seekScan (p : PL) (i : Nat) (rest : ℤ) : SeekRes :=
  seekScanAux p (p.list.length - i + 1) i rest

/-- The entry points of the class, plus the three timer/notification
triggers of the runtime.  `execE` carries the `entry` argument the
JS callers capture in closures. -/
inductive Call
  | update
  | execE (e : Entry) (t : EvTime)
  | endSig
  | next
  | start
  | play
  | pauseEndC
  | setCurrentCurrentTime (t : ℤ)
  | setCurrentTime (t : ℤ)
  | setIndex (i : Nat)
  | timerFire
  | pauseTimer
  | posTick (v : ℤ)
deriving Repr

/-- Fuel-indexed interpreter for the methods of `VideoPlaylist`.
Each `Call` case is a line-by-line embedding of the corresponding
method; nested method calls consume one unit of fuel (with fuel 0 a
nested call becomes a no-op, which never happens at the fuel values
used in the theorems below).  Returns the new state and the trace of
observable events. -/
def run : Nat → PL → Call → PL × List Ev
  | 0, p, _ => (p, [])
  | fuel + 1, p, c =>
    match c with
    | .update =>
      -- lines 281-310
      let p := { p with currentTimeout := none }
      match p.current with
      | none => (p, [])
      | some slot =>
        match slot.index with
        | none => (p, [])
        | some k =>
          match p.list.get? k with
          | none => (p, [Ev.jsError])
          | some e =>
            let pos := slot.videoTime
            match nextWakeTime e slot.actionIndex slot.pauseIndex pos with
            | none => (p, [])
            | some m =>
              if m = pos then run fuel p (.execE e (.num m))
              else ({ p with currentTimeout := some ⟨e, m, m - pos⟩ }, [])
    | .execE e t =>
      -- executeActionsOrPauses, lines 322-361
      match p.activePause with
      | some _ => (p, [])
      | none =>
        match p.current with
        | none =>
          -- `this.current` is null: the filters/`video.play()` throw
          -- unless both lists are empty and `time === 'end'`.
          let p := { p with actionTime := t }
          if e.actions.isEmpty && e.pauses.isEmpty then
            if t = EvTime.endS then run fuel p .next
            else (p, [Ev.jsError])
          else (p, [Ev.jsError])
        | some slot =>
          let tag := slot.index
          let p := { p with actionTime := t }
          let acts := dueActions e slot.actionIndex t
          let ps := duePauses e slot.pauseIndex t
          let r1 := fireActions e tag acts p
          match ps with
          | pz :: _ =>
            let r2 := pauseStartF e pz none r1.1
            (r2.1, r1.2 ++ r2.2)
          | [] =>
            -- `this.activePause && this.activePause.end()`: none here
            if t = EvTime.endS then
              let r2 := run fuel r1.1 .next
              (r2.1, r1.2 ++ r2.2)
            else
              let r2 := run fuel r1.1 .update
              (r2.1, r1.2 ++ [Ev.playCmd] ++ r2.2)
    | .endSig =>
      -- end(), lines 312-320
      match p.current with
      | none => (p, [])
      | some slot =>
        match slot.index.bind (p.list.get? ·) with
        | none =>
          -- `this.list[null]`/out of range is undefined;
          -- `executeActionsOrPauses(undefined, 'end')` returns silently
          -- when a pause is active, else throws on `entry.actions`.
          match p.activePause with
          | some _ => (p, [])
          | none => ({ p with actionTime := .endS }, [Ev.jsError])
        | some e => run fuel p (.execE e .endS)
    | .next =>
      -- lines 446-465
      let p := { p with currentTimeout := none }
      let r1 :=
        match p.current with
        | none => (p, ([] : List Ev))
        | some slot =>
          ({ p with current := none,
                    preloadList := p.preloadList ++ [{ slot with index := none }] },
           [Ev.ended])
      let p2 := preloadF r1.1
      let r3 := run fuel p2 .start
      let p3 := r3.1
      let r4 :=
        match p3.current with
        | some slot =>
          match slot.index with
          | some k => if k ≠ 0 then run fuel p3 .play else (p3, ([] : List Ev))
          | none => (p3, ([] : List Ev))
        | none => (p3, ([] : List Ev))
      (r4.1, r1.2 ++ r3.2 ++ r4.2)
    | .start =>
      -- lines 229-261
      match p.preloadList with
      | [] => ({ p with current := none }, [Ev.endedAll])
      | slot :: rest =>
        let p := { p with current := some slot, preloadList := rest }
        match slot.index with
        | none => (p, [Ev.endedAll])
        | some k =>
          if p.list.length < k then (p, [])
          else
            match p.list.get? k with
            | none => (p, [Ev.jsError])
            | some _e =>
              if jsTruthy p.requestedCurrentTime then
                let r := run fuel p (.setCurrentTime (p.requestedCurrentTime.getD 0))
                (r.1, Ev.nextE k :: r.2)
              else
                let p := { p with actionTime := .num 0 }
                let p := modifySlot p
                  (fun s => { s with actionIndex := some 0, pauseIndex := some 0 })
                let r := run fuel p .update
                (r.1, Ev.nextE k :: r.2)
    | .play =>
      -- lines 266-276
      let r1 := if p.current.isNone then run fuel p .start else (p, ([] : List Ev))
      let p1 := r1.1
      match p1.current with
      | none => (p1, r1.2 ++ [Ev.jsError])
      | some slot =>
        match slot.index with
        | none => (p1, r1.2 ++ [Ev.jsError])
        | some k =>
          match p1.list.get? k with
          | none => (p1, r1.2 ++ [Ev.jsError])
          | some e =>
            if e.videoDuration = some 0 then
              let r2 := run fuel p1 .next
              (r2.1, r1.2 ++ r2.2)
            else
              let r2 := run fuel p1 .update
              (r2.1, r1.2 ++ r2.2)
    | .pauseEndC =>
      -- _pauseEnd, lines 392-414: cancel the pause timer, emit
      -- `pauseEnd`, revert the effects, clear `activePause`, then
      -- re-run the resolver at the pause's own time.
      match p.activePause with
      | none => (p, [])
      | some ap =>
        let tag := p.current.bind (·.index)
        let p1 := { p with activePause := none }
        let r := run fuel p1 (.execE ap.entry ap.pause.time)
        (r.1, Ev.pauseEndE tag (ap.entry.pauses.indexOf ap.pause) :: r.2)
    | .setCurrentCurrentTime t =>
      -- set currentCurrentTime, lines 537-581
      match p.current with
      | none => (p, [])
      | some slot =>
        match slot.index.bind (p.list.get? ·) with
        | none => (p, [])
        | some e =>
          let r1 := if p.activePause.isSome then run fuel p .pauseEndC
                    else (p, ([] : List Ev))
          let p1 := r1.1
          let scan := passedScan t e.pauses
          match scan.1.getLast? with
          | none => (p1, r1.2)
          | some pz =>
            let rest := scan.1.dropLast
            let t2 := t - (rest.map (·.duration)).sum
            let inWin :=
              match evNum pz.time with
              | some pt => decide (t2 < pt + pz.duration)
              | none => false
            if inWin then
              let pt := (evNum pz.time).getD 0
              let p2 := setVideoTime p1 pt
              let r3 := pauseStartF e pz (some (t2 - pt)) p2
              let p4 := setVideoTime r3.1 pt
              (p4, r1.2 ++ r3.2)
            else
              let r2 := if p1.activePause.isSome then run fuel p1 .pauseEndC
                        else (p1, ([] : List Ev))
              let p3 := modifySlot r2.1
                (fun s => { s with pauseIndex := some (e.pauses.indexOf pz + 1) })
              let p4 := setVideoTime p3 scan.2
              (p4, r1.2 ++ r2.2 ++ [Ev.playCmd])
    | .setCurrentTime t =>
      -- set currentTime, lines 614-640
      let p := { p with requestedCurrentTime := none }
      match seekScan p 0 t with
      | .unknownDur rest i =>
        let p1 := { p with requestedCurrentTime := some rest }
        run fuel p1 (.setIndex i)
      | .here rest i =>
        match p.current with
        | none => (p, [Ev.jsError])
        | some slot =>
          let r1 := if slot.index ≠ some i then run fuel p (.setIndex i)
                    else (p, ([] : List Ev))
          let r2 := run fuel r1.1 (.setCurrentCurrentTime rest)
          (r2.1, r1.2 ++ r2.2)
    | .setIndex i =>
      -- set index, lines 665-692
      let same :=
        match p.current with
        | some slot => slot.index == some i
        | none => false
      if same then
        -- `this.currentCurrentTime = this.requestedCurrentTime` (a null
        -- requested time behaves as 0 in the setter's arithmetic)
        let r1 := run fuel p (.setCurrentCurrentTime (p.requestedCurrentTime.getD 0))
        let r2 := run fuel r1.1 .update
        (r2.1, r1.2 ++ r2.2)
      else
        let r := rotScan i p.preloadList
        let pi' := if r.1.isEmpty then i else p.preloadIndex
        let p1 := { p with preloadList := r.1 ++ r.2, preloadIndex := pi' }
        run fuel p1 .next
    | .timerFire =>
      -- the armed `this.currentTimeout` fires: the closure captured
      -- `entry` and `time`; firing consumes the pending timer.
      match p.currentTimeout with
      | none => (p, [])
      | some ti => run fuel { p with currentTimeout := none } (.execE ti.entry (.num ti.time))
    | .pauseTimer =>
      -- the armed active-pause timeout fires
      match p.activePause with
      | none => (p, [])
      | some _ => run fuel p .pauseEndC
    | .posTick v =>
      -- an engine position notification (`onseeked`/`onplaying`/…):
      -- the element position is `v` and the handler calls `update()`.
      match p.current with
      | none => (p, [])
      | some _ => run fuel (setVideoTime p v) .update

/-- Run a sequence of calls, concatenating the traces. -/
def runSeq (fuel : Nat) (p : PL) : List Call → PL × List Ev
  | [] => (p, [])
  | c :: cs =>
    let r1 := run fuel p c
    let r2 := runSeq fuel r1.1 cs
    (r2.1, r1.2 ++ r2.2)

/-- Fire the active-pause timer repeatedly until no pause is active
(the "stacked pauses" completion chain). -/
def drain (fuel : Nat) (innerFuel : Nat) (p : PL) : PL × List Ev :=
  match fuel with
  | 0 => (p, [])
  | fuel + 1 =>
    match p.activePause with
    | none => (p, [])
    | some _ =>
      let r1 := run innerFuel p .pauseTimer
      let r2 := drain fuel innerFuel r1.1
      (r2.1, r1.2 ++ r2.2)

/-- Indices retained by the due-actions filter (`executeActionsOrPauses`
line 329), for reasoning about cursor movement. -/
def dueActIdxs (e : Entry) (aIdx : Option Nat) (t : EvTime) : List Nat :=
  (filterIdxP (fun a i => a.time == t && cursorLE aIdx i) e.actions).map (·.1)

/-- Indices retained by the due-pauses filter (line 330). -/
def duePauseIdxs (e : Entry) (pIdx : Option Nat) (t : EvTime) : List Nat :=
  (filterIdxP (fun p i => p.time == t && cursorLE pIdx i) e.pauses).map (·.1)

/-- The action cursor value after firing the due batch: one past the
last fired index, or unchanged when nothing fired. -/
def bumpCursor (c : Nat) (l : List Nat) : Nat :=
  match l.getLast? with
  | none => c
  | some i => i + 1

/-- A strictly increasing list of naturals confined to `[lo, hi)`. -/
def Bnd (lo hi : Nat) (l : List Nat) : Prop :=
  l.Pairwise (· < ·) ∧ ∀ i ∈ l, lo ≤ i ∧ i < hi

lemma Bnd.nil {a b : Nat} : Bnd a b [] :=
  ⟨List.Pairwise.nil, by simp⟩

lemma Bnd.mono {a a' b b' : Nat} {l : List Nat} (ha : a' ≤ a) (hb : b ≤ b')
    (h : Bnd a b l) : Bnd a' b' l :=
  ⟨h.1, fun i hi => ⟨le_trans ha (h.2 i hi).1, lt_of_lt_of_le (h.2 i hi).2 hb⟩⟩

lemma Bnd_append {a b c : Nat} {l1 l2 : List Nat} (hab : a ≤ b) (hbc : b ≤ c)
    (h1 : Bnd a b l1) (h2 : Bnd b c l2) : Bnd a c (l1 ++ l2) := by
  refine ⟨List.pairwise_append.mpr ⟨h1.1, h2.1, ?_⟩, ?_⟩
  · intro x hx y hy
    exact lt_of_lt_of_le (h1.2 x hx).2 (h2.2 y hy).1
  · intro i hi
    rcases List.mem_append.mp hi with h | h
    · exact ⟨(h1.2 i h).1, lt_of_lt_of_le (h1.2 i h).2 hbc⟩
    · exact ⟨le_trans hab (h2.2 i h).1, (h2.2 i h).2⟩

lemma pairwise_fst_enumFrom {α : Type _} :
    ∀ (l : List α) (n : Nat), (l.enumFrom n).Pairwise (fun x y => x.1 < y.1) := by
  intro l
  induction l with
  | nil => intro n; simp
  | cons a l ih =>
    intro n
    refine List.Pairwise.cons ?_ (ih (n + 1))
    intro x hx
    have := (List.mk_mem_enumFrom_iff_le_and_getElem?_sub (x := x.2)).mp (by simpa using hx)
    omega

lemma pairwise_fst_enum {α : Type _} (l : List α) :
    l.enum.Pairwise (fun x y => x.1 < y.1) :=
  pairwise_fst_enumFrom l 0

lemma filterIdxP_pairwise {α : Type _} (f : α → Nat → Bool) (l : List α) :
    (filterIdxP f l).Pairwise (fun x y => x.1 < y.1) :=
  (pairwise_fst_enum l).sublist (List.filter_sublist _)

lemma mem_filterIdxP {α : Type _} {f : α → Nat → Bool} {l : List α} {x : Nat × α} :
    x ∈ filterIdxP f l ↔ l.get? x.1 = some x.2 ∧ f x.2 x.1 = true := by
  unfold filterIdxP
  rw [List.mem_filter, List.mem_enum_iff_getElem?, List.get?_eq_getElem?]

lemma pairwise_lt_le_getLast {l : List Nat} (h : l.Pairwise (· < ·)) :
    ∀ i ∈ l, ∀ j, l.getLast? = some j → i ≤ j := by
  induction l with
  | nil => simp
  | cons a l ih =>
    intro i hi j hj
    rcases l with _ | ⟨b, l'⟩
    · simp at hi hj; omega
    · rw [List.getLast?_cons_cons] at hj
      rcases List.mem_cons.mp hi with rfl | hi'
      · have hb : i < b := (List.pairwise_cons.mp h).1 b (by simp)
        have := ih (List.pairwise_cons.mp h).2 b (by simp) j hj
        omega
      · exact ih (List.pairwise_cons.mp h).2 i hi' j hj

lemma getLast?_mem {l : List Nat} {j : Nat} (h : l.getLast? = some j) : j ∈ l := by
  rcases List.mem_getLast?_eq_getLast (x := j) (by rw [h]; rfl) with ⟨hne, rfl⟩
  exact List.getLast_mem hne

/-- A strictly increasing list bounded below by `c` lies in
`[c, bumpCursor c l)`, and the bumped cursor never moves backwards. -/
lemma idxs_bnd {l : List Nat} {c : Nat} (hpw : l.Pairwise (· < ·))
    (hlo : ∀ i ∈ l, c ≤ i) : Bnd c (bumpCursor c l) l ∧ c ≤ bumpCursor c l := by
  constructor
  · refine ⟨hpw, fun i hi => ⟨hlo i hi, ?_⟩⟩
    have hne : l ≠ [] := by
      intro h; rw [h] at hi; simp at hi
    rcases hlast : l.getLast? with _ | j
    · exact absurd (List.getLast?_eq_none_iff.mp hlast) hne
    · have hle := pairwise_lt_le_getLast hpw i hi j hlast
      simp only [bumpCursor, hlast]
      omega
  · rcases hlast : l.getLast? with _ | j
    · simp [bumpCursor, hlast]
    · have := hlo j (getLast?_mem hlast)
      simp only [bumpCursor, hlast]
      omega

lemma dueActIdxs_pairwise (e : Entry) (c : Option Nat) (t : EvTime) :
    (dueActIdxs e c t).Pairwise (· < ·) := by
  unfold dueActIdxs
  exact (List.pairwise_map).mpr (filterIdxP_pairwise _ _)

lemma dueActIdxs_lo (e : Entry) (ca : Nat) (t : EvTime) :
    ∀ i ∈ dueActIdxs e (some ca) t, ca ≤ i := by
  intro i hi
  unfold dueActIdxs at hi
  rcases List.mem_map.mp hi with ⟨x, hx, rfl⟩
  have h2 := (mem_filterIdxP.mp hx).2
  simp only [Bool.and_eq_true, beq_iff_eq] at h2
  simpa [cursorLE] using h2.2

lemma duePauseIdxs_pairwise (e : Entry) (c : Option Nat) (t : EvTime) :
    (duePauseIdxs e c t).Pairwise (· < ·) := by
  unfold duePauseIdxs
  exact (List.pairwise_map).mpr (filterIdxP_pairwise _ _)

lemma duePauseIdxs_lo (e : Entry) (cp : Nat) (t : EvTime) :
    ∀ i ∈ duePauseIdxs e (some cp) t, cp ≤ i := by
  intro i hi
  unfold duePauseIdxs at hi
  rcases List.mem_map.mp hi with ⟨x, hx, rfl⟩
  have h2 := (mem_filterIdxP.mp hx).2
  simp only [Bool.and_eq_true, beq_iff_eq] at h2
  simpa [cursorLE] using h2.2

/-- The due-index batch is strictly increasing, bounded below by the
cursor and above by the bumped cursor. -/
lemma dueActIdxs_bnd (e : Entry) (ca : Nat) (t : EvTime) :
    Bnd ca (bumpCursor ca (dueActIdxs e (some ca) t)) (dueActIdxs e (some ca) t) ∧
    ca ≤ bumpCursor ca (dueActIdxs e (some ca) t) :=
  idxs_bnd (dueActIdxs_pairwise e _ t) (dueActIdxs_lo e ca t)

lemma duePauseIdxs_bnd (e : Entry) (cp : Nat) (t : EvTime) :
    Bnd cp (bumpCursor cp (duePauseIdxs e (some cp) t)) (duePauseIdxs e (some cp) t) ∧
    cp ≤ bumpCursor cp (duePauseIdxs e (some cp) t) :=
  idxs_bnd (duePauseIdxs_pairwise e _ t) (duePauseIdxs_lo e cp t)

lemma indexOf_filterIdxP {α : Type _} [DecidableEq α] {l : List α} (hnd : l.Nodup)
    {f : α → Nat → Bool} {x : Nat × α} (hx : x ∈ filterIdxP f l) :
    l.indexOf x.2 = x.1 := by
  have h1 := (mem_filterIdxP.mp hx).1
  rw [List.get?_eq_getElem?] at h1
  rcases List.getElem?_eq_some.mp h1 with ⟨hlt, hget⟩
  rw [← hget]
  exact List.indexOf_getElem hnd x.1 hlt

/-- `actions.forEach` over the due batch, characterised on the
index/value pairs: the trace lists the fired indices in order and the
cursor ends one past the last fired index. -/
lemma fireActions_spec (e : Entry) (tag : Option Nat) :
    ∀ (L : List (Nat × Action)) (p : PL) (slot : Slot),
      p.current = some slot →
      (∀ x ∈ L, e.actions.indexOf x.2 = x.1) →
      fireActions e tag (L.map (·.2)) p =
        ({ p with current := some { slot with actionIndex :=
             match L.getLast? with
             | none => slot.actionIndex
             | some x => some (x.1 + 1) } },
         L.map (fun x => Ev.action tag x.1)) := by
  intro L
  induction L with
  | nil =>
    intro p slot hcur _
    simp only [List.map_nil, fireActions, List.getLast?_nil]
    rw [← hcur]
  | cons x L ih =>
    intro p slot hcur hidx
    have hx : e.actions.indexOf x.2 = x.1 := hidx x (by simp)
    have hcur1 : (modifySlot p
        (fun s => { s with actionIndex := some (e.actions.indexOf x.2 + 1) })).current =
        some { slot with actionIndex := some (x.1 + 1) } := by
      simp [modifySlot, hcur, hx]
    have hrec := ih (modifySlot p
        (fun s => { s with actionIndex := some (e.actions.indexOf x.2 + 1) }))
      { slot with actionIndex := some (x.1 + 1) } hcur1
      (fun y hy => hidx y (by simp [hy]))
    rw [show fireActions e tag ((x :: L).map (·.2)) p =
          ((fireActions e tag (L.map (·.2)) (modifySlot p
             (fun s => { s with actionIndex := some (e.actions.indexOf x.2 + 1) }))).1,
           Ev.action tag (e.actions.indexOf x.2) ::
             (fireActions e tag (L.map (·.2)) (modifySlot p
               (fun s => { s with actionIndex := some (e.actions.indexOf x.2 + 1) }))).2)
          from rfl, hrec, hx]
    cases L with
    | nil => rfl
    | cons y L' =>
      rw [List.getLast?_cons_cons]
      rfl

/-- The action indices fired for clip `k` in a trace. -/
def actIdxsOf (k : Nat) (tr : List Ev) : List Nat :=
  tr.filterMap (fun ev =>
    match ev with
    | .action (some j) i => if j = k then some i else none
    | _ => none)

/-- The pause-start indices fired for clip `k` in a trace. -/
def pstIdxsOf (k : Nat) (tr : List Ev) : List Nat :=
  tr.filterMap (fun ev =>
    match ev with
    | .pauseStartE (some j) i => if j = k then some i else none
    | _ => none)

lemma actIdxsOf_nil (k : Nat) : actIdxsOf k [] = [] := rfl

lemma pstIdxsOf_nil (k : Nat) : pstIdxsOf k [] = [] := rfl

lemma actIdxsOf_append (k : Nat) (t1 t2 : List Ev) :
    actIdxsOf k (t1 ++ t2) = actIdxsOf k t1 ++ actIdxsOf k t2 :=
  List.filterMap_append _ _ _

lemma pstIdxsOf_append (k : Nat) (t1 t2 : List Ev) :
    pstIdxsOf k (t1 ++ t2) = pstIdxsOf k t1 ++ pstIdxsOf k t2 :=
  List.filterMap_append _ _ _

lemma actIdxsOf_map_self (k : Nat) (l : List Nat) :
    actIdxsOf k (l.map (Ev.action (some k))) = l := by
  induction l with
  | nil => rfl
  | cons a l ih => simp [actIdxsOf, List.filterMap_cons] at ih ⊢; exact ih

lemma pstIdxsOf_map_act (k : Nat) (tag : Option Nat) (l : List Nat) :
    pstIdxsOf k (l.map (Ev.action tag)) = [] := by
  induction l with
  | nil => rfl
  | cons a l ih => simpa [pstIdxsOf, List.filterMap_cons] using ih

lemma actIdxsOf_map_other (k : Nat) (tag : Option Nat) (h : tag ≠ some k)
    (l : List Nat) : actIdxsOf k (l.map (Ev.action tag)) = [] := by
  induction l with
  | nil => rfl
  | cons a l ih =>
    rcases tag with _ | j
    · simpa [actIdxsOf, List.filterMap_cons] using ih
    · have hj : j ≠ k := fun hk => h (by rw [hk])
      simpa [actIdxsOf, List.filterMap_cons, hj] using ih

lemma actIdxsOf_map_any (k : Nat) (tag : Option Nat) (l : List Nat) :
    actIdxsOf k (l.map (Ev.action tag)) = if tag = some k then l else [] := by
  by_cases h : tag = some k
  · subst h; simp [actIdxsOf_map_self]
  · simp [h, actIdxsOf_map_other k tag h]

lemma pstIdxsOf_pauseStart (k i : Nat) (tag : Option Nat) :
    pstIdxsOf k [Ev.pauseCmd, Ev.pauseStartE tag i] =
      if tag = some k then [i] else [] := by
  rcases tag with _ | j
  · simp [pstIdxsOf, List.filterMap_cons]
  · by_cases hj : j = k
    · subst hj; simp [pstIdxsOf, List.filterMap_cons]
    · simp [pstIdxsOf, List.filterMap_cons, hj, Option.some.injEq]

lemma actIdxsOf_pauseStart (k i : Nat) (tag : Option Nat) :
    actIdxsOf k [Ev.pauseCmd, Ev.pauseStartE tag i] = [] := rfl

/-- `fireActions` only moves the current slot's action cursor and emits
one `action` notification per element; every other component of the
state is untouched. -/
lemma fireActions_proj (e : Entry) (tag : Option Nat) :
    ∀ (acts : List Action) (p : PL),
    (fireActions e tag acts p).1.current.map (·.index) = p.current.map (·.index) ∧
    (fireActions e tag acts p).1.current.map (·.pauseIndex) = p.current.map (·.pauseIndex) ∧
    (fireActions e tag acts p).1.current.map (·.videoTime) = p.current.map (·.videoTime) ∧
    (fireActions e tag acts p).1.current.isSome = p.current.isSome ∧
    (fireActions e tag acts p).1.preloadList = p.preloadList ∧
    (fireActions e tag acts p).1.preloadIndex = p.preloadIndex ∧
    (fireActions e tag acts p).1.requestedCurrentTime = p.requestedCurrentTime ∧
    (fireActions e tag acts p).1.activePause = p.activePause ∧
    (fireActions e tag acts p).1.list = p.list ∧
    (fireActions e tag acts p).1.currentTimeout = p.currentTimeout ∧
    (fireActions e tag acts p).1.actionTime = p.actionTime ∧
    (fireActions e tag acts p).2 =
      acts.map (fun a => Ev.action tag (e.actions.indexOf a)) := by
  intro acts
  induction acts with
  | nil => intro p; simp [fireActions]
  | cons a acts ih =>
    intro p
    have h := ih (modifySlot p
      (fun s => { s with actionIndex := some (e.actions.indexOf a + 1) }))
    simp only [fireActions]
    refine ⟨?_, ?_, ?_, ?_, ?_, ?_, ?_, ?_, ?_, ?_, ?_, ?_⟩
    · rw [h.1]; cases hc : p.current <;> simp [modifySlot, hc]
    · rw [h.2.1]; cases hc : p.current <;> simp [modifySlot, hc]
    · rw [h.2.2.1]; cases hc : p.current <;> simp [modifySlot, hc]
    · rw [h.2.2.2.1]; cases hc : p.current <;> simp [modifySlot, hc]
    · exact h.2.2.2.2.1
    · exact h.2.2.2.2.2.1
    · exact h.2.2.2.2.2.2.1
    · exact h.2.2.2.2.2.2.2.1
    · exact h.2.2.2.2.2.2.2.2.1
    · exact h.2.2.2.2.2.2.2.2.2.1
    · exact h.2.2.2.2.2.2.2.2.2.2.1
    · simp [h.2.2.2.2.2.2.2.2.2.2.2]

/-- Calls that neither seek nor jump (the claim's "clip reset"
operations are `setCurrentTime`, `setCurrentCurrentTime` and
`setIndex`). -/
def SafeCall : Call → Prop := fun c =>
  match c with
  | .setCurrentTime _ => False
  | .setCurrentCurrentTime _ => False
  | .setIndex _ => False
  | _ => True

/-- Clip `k`'s instance is over: it is not current, no preload slot
claims it, the preload counter has moved past it, and no deferred
seek is pending. -/
def DeadS (k : Nat) (p : PL) : Prop :=
  (∀ slot, p.current = some slot → slot.index ≠ some k) ∧
  (∀ s ∈ p.preloadList, s.index ≠ some k) ∧
  k < p.preloadIndex ∧
  p.requestedCurrentTime = none

/-- `preload` only assigns indices `≥ preloadIndex`, so a dead clip is
never re-claimed; the playlist keeps its length and the counter never
decreases. -/
lemma preloadSlots_spec (len : Nat) (k : Nat) :
    ∀ (slots : List Slot) (pi : Nat) (l : List Entry),
    k < pi → (∀ s ∈ slots, s.index ≠ some k) →
    (∀ s ∈ (preloadSlots len slots pi l).1, s.index ≠ some k) ∧
    k < (preloadSlots len slots pi l).2.1 ∧
    (preloadSlots len slots pi l).2.2.get? k = l.get? k ∧
    (preloadSlots len slots pi l).2.2.length = l.length := by
  intro slots
  induction slots with
  | nil => intro pi l hk _; exact ⟨by simp [preloadSlots], hk, rfl, rfl⟩
  | cons s rest ih =>
    intro pi l hk hs
    have hrest : ∀ x ∈ rest, x.index ≠ some k := fun x hx => hs x (by simp [hx])
    have hk' : k < pi + 1 := Nat.lt_succ_of_lt hk
    have hhead : s.index ≠ some k := hs s (by simp)
    simp only [preloadSlots]
    split
    · -- slot already claimed
      have h := ih pi l hk hrest
      refine ⟨?_, h.2.1, h.2.2.1, h.2.2.2⟩
      intro x hx
      rcases List.mem_cons.mp hx with rfl | hx'
      · exact hhead
      · exact h.1 x hx'
    · -- unclaimed slot
      split
      · -- idx < len
        split
        · -- entry found
          split
          · -- entry has media: claim the slot
            have h := ih (pi + 1) l hk' hrest
            refine ⟨?_, h.2.1, h.2.2.1, h.2.2.2⟩
            intro x hx
            rcases List.mem_cons.mp hx with rfl | hx'
            · simp; omega
            · exact h.1 x hx'
          · -- silent entry: claim the slot and patch the list
            rename_i e heq hv
            have h := ih (pi + 1)
              (l.set pi { e with videoDuration := some 0 }) hk' hrest
            refine ⟨?_, h.2.1, ?_, ?_⟩
            · intro x hx
              rcases List.mem_cons.mp hx with rfl | hx'
              · simp; omega
              · exact h.1 x hx'
            · rw [h.2.2.1, List.get?_set_ne _ _ (by omega)]
            · rw [h.2.2.2, List.length_set]
        · -- entry lookup failed (unreachable when idx < len)
          have h := ih (pi + 1) l hk' hrest
          refine ⟨?_, h.2.1, h.2.2.1, h.2.2.2⟩
          intro x hx
          rcases List.mem_cons.mp hx with rfl | hx'
          · simp; omega
          · exact h.1 x hx'
      · -- idx ≥ len: slot stays unclaimed
        have h := ih (pi + 1) l hk' hrest
        refine ⟨?_, h.2.1, h.2.2.1, h.2.2.2⟩
        intro x hx
        rcases List.mem_cons.mp hx with rfl | hx'
        · simp
        · exact h.1 x hx'

/-- `preload` preserves the dead-clip invariant and looks up of the
dead clip's entry. -/
lemma preloadF_dead {k : Nat} {p : PL} (h : DeadS k p) :
    DeadS k (preloadF p) ∧ (preloadF p).list.get? k = p.list.get? k ∧
    (preloadF p).current = p.current := by
  have hs := preloadSlots_spec p.list.length k p.preloadList p.preloadIndex p.list
    h.2.2.1 h.2.1
  exact ⟨⟨fun slot hc => h.1 slot hc, hs.1, hs.2.1, h.2.2.2⟩, hs.2.2.1, rfl⟩

/-- A trace containing no `action` or `pauseStart` event for clip `k`. -/
def NoK (k : Nat) (tr : List Ev) : Prop :=
  actIdxsOf k tr = [] ∧ pstIdxsOf k tr = []

lemma NoK_nil {k : Nat} : NoK k [] := ⟨rfl, rfl⟩

lemma NoK.append {k : Nat} {t1 t2 : List Ev} (h1 : NoK k t1) (h2 : NoK k t2) :
    NoK k (t1 ++ t2) :=
  ⟨by rw [actIdxsOf_append, h1.1, h2.1]; rfl,
   by rw [pstIdxsOf_append, h1.2, h2.2]; rfl⟩

lemma NoK_ended {k : Nat} : NoK k [Ev.ended] := ⟨rfl, rfl⟩
lemma NoK_endedAll {k : Nat} : NoK k [Ev.endedAll] := ⟨rfl, rfl⟩
lemma NoK_jsError {k : Nat} : NoK k [Ev.jsError] := ⟨rfl, rfl⟩
lemma NoK_playCmd {k : Nat} : NoK k [Ev.playCmd] := ⟨rfl, rfl⟩
lemma NoK_nextE {k i : Nat} : NoK k [Ev.nextE i] := ⟨rfl, rfl⟩

lemma NoK_pauseEnd {k i : Nat} {tag : Option Nat} :
    NoK k [Ev.pauseEndE tag i] := by
  rcases tag with _ | j <;> exact ⟨rfl, rfl⟩

lemma NoK_cons_pauseEnd {k i : Nat} {tag : Option Nat} {tr : List Ev}
    (h : NoK k tr) : NoK k (Ev.pauseEndE tag i :: tr) := by
  have := NoK.append (k := k) (@NoK_pauseEnd k i tag) h
  simpa using this

lemma NoK_actions_other {k : Nat} {tag : Option Nat} (h : tag ≠ some k)
    (e : Entry) (acts : List Action) :
    NoK k (acts.map (fun a => Ev.action tag (e.actions.indexOf a))) := by
  constructor
  · rw [show acts.map (fun a => Ev.action tag (e.actions.indexOf a)) =
        (acts.map (fun a => e.actions.indexOf a)).map (Ev.action tag) by
          rw [List.map_map]; rfl]
    exact actIdxsOf_map_other k tag h _
  · rw [show acts.map (fun a => Ev.action tag (e.actions.indexOf a)) =
        (acts.map (fun a => e.actions.indexOf a)).map (Ev.action tag) by
          rw [List.map_map]; rfl]
    exact pstIdxsOf_map_act k tag _

lemma NoK_pauseStart_other {k i : Nat} {tag : Option Nat} (h : tag ≠ some k) :
    NoK k [Ev.pauseCmd, Ev.pauseStartE tag i] := by
  refine ⟨actIdxsOf_pauseStart k i tag, ?_⟩
  rw [pstIdxsOf_pauseStart]
  simp [h]

/-- Once clip `k` is dead, no reset-free call can fire any of its
events again, and it stays dead: `preloadIndex` has moved past `k`
and is never decreased, so no slot ever re-claims the clip. -/


lemma DeadS_transfer {k : Nat} {p q : PL} (hd : DeadS k p)
    (hcur : q.current.map (·.index) = p.current.map (·.index))
    (hpre : q.preloadList = p.preloadList)
    (hpi : q.preloadIndex = p.preloadIndex)
    (hreq : q.requestedCurrentTime = p.requestedCurrentTime) : DeadS k q := by
  refine ⟨?_, by rw [hpre]; exact hd.2.1, by rw [hpi]; exact hd.2.2.1,
    by rw [hreq]; exact hd.2.2.2⟩
  intro s hx
  rw [hx] at hcur
  rcases hc : p.current with _ | s2
  · rw [hc] at hcur; simp at hcur
  · rw [hc] at hcur
    simp only [Option.map_some', Option.some.injEq] at hcur
    rw [hcur]
    exact hd.1 s2 hc

lemma dead_bind_index {k : Nat} {p : PL} (hd : DeadS k p) :
    p.current.bind (·.index) ≠ some k := by
  rcases hc : p.current with _ | s
  · simp
  · simpa [hc] using hd.1 s hc

/-- `_pauseStart` only moves the pause cursor and records the active
pause; everything else is untouched. -/
lemma pauseStartF_proj (e : Entry) (pz : Pause) (durOpt : Option ℤ) (p : PL) :
    (pauseStartF e pz durOpt p).1.current.map (·.index) = p.current.map (·.index) ∧
    (pauseStartF e pz durOpt p).1.preloadList = p.preloadList ∧
    (pauseStartF e pz durOpt p).1.preloadIndex = p.preloadIndex ∧
    (pauseStartF e pz durOpt p).1.requestedCurrentTime = p.requestedCurrentTime ∧
    (pauseStartF e pz durOpt p).1.list = p.list ∧
    (pauseStartF e pz durOpt p).1.currentTimeout = p.currentTimeout ∧
    (pauseStartF e pz durOpt p).1.activePause = some ⟨e, pz, durOpt.getD pz.duration⟩ ∧
    (pauseStartF e pz durOpt p).2 =
      [Ev.pauseCmd, Ev.pauseStartE (p.current.bind (·.index)) (e.pauses.indexOf pz)] := by
  rcases hc : p.current with _ | s <;>
    simp [pauseStartF, modifySlot, hc]

lemma deadCur {k : Nat} {slot : Slot} (h : slot.index ≠ some k) :
    ∀ s : Slot, some slot = some s → s.index ≠ some k := by
  intro s hx
  injection hx with h2
  rw [← h2]
  exact h

lemma run_dead (k : Nat) :
    ∀ (fuel : Nat) (p : PL) (c : Call), DeadS k p → SafeCall c →
    DeadS k (run fuel p c).1 ∧ NoK k (run fuel p c).2 := by
  intro fuel
  induction fuel with
  | zero => intro p c hd _; exact ⟨hd, NoK_nil⟩
  | succ fuel ih =>
    intro p c hd hs
    rcases hd with ⟨hdc, hdp, hdi, hdr⟩
    cases c with
    | setCurrentTime t => exact absurd hs (by simp [SafeCall])
    | setCurrentCurrentTime t => exact absurd hs (by simp [SafeCall])
    | setIndex i => exact absurd hs (by simp [SafeCall])
    | update =>
      simp only [run]
      split
      · exact ⟨⟨hdc, hdp, hdi, hdr⟩, NoK_nil⟩
      next slot hc =>
        split
        · exact ⟨⟨hdc, hdp, hdi, hdr⟩, NoK_nil⟩
        next m hm =>
          split
          · exact ⟨⟨hdc, hdp, hdi, hdr⟩, NoK_jsError⟩
          next e hg =>
            split
            · exact ⟨⟨hdc, hdp, hdi, hdr⟩, NoK_nil⟩
            next mm hw =>
              split
              · exact ih _ _ ⟨hdc, hdp, hdi, hdr⟩ trivial
              · exact ⟨⟨hdc, hdp, hdi, hdr⟩, NoK_nil⟩
    | execE e t =>
      simp only [run]
      split
      · -- a pause is active: complete no-op
        exact ⟨⟨hdc, hdp, hdi, hdr⟩, NoK_nil⟩
      next ha =>
        split
        next hc =>
          -- current is null (the empty-lists 'end' corner or a throw)
          have hd1 : DeadS k ({ p with actionTime := t }) :=
            ⟨fun s hx => hdc s hx, hdp, hdi, hdr⟩
          split
          · split
            · exact ih _ Call.next hd1 trivial
            · exact ⟨hd1, NoK_jsError⟩
          · exact ⟨hd1, NoK_jsError⟩
        next slot hc =>
          have htag : slot.index ≠ some k := hdc slot hc
          have hd0 : DeadS k ({ p with actionTime := t }) :=
            ⟨fun s hx => hdc s hx, hdp, hdi, hdr⟩
          have hproj := fireActions_proj e slot.index
            (dueActions e slot.actionIndex t) { p with actionTime := t }
          have hfired : DeadS k (fireActions e slot.index
              (dueActions e slot.actionIndex t) { p with actionTime := t }).1 :=
            DeadS_transfer hd0 hproj.1 hproj.2.2.2.2.1 hproj.2.2.2.2.2.1
              hproj.2.2.2.2.2.2.1
          have hfireT : NoK k (fireActions e slot.index
              (dueActions e slot.actionIndex t) { p with actionTime := t }).2 := by
            rw [hproj.2.2.2.2.2.2.2.2.2.2.2]
            exact NoK_actions_other htag e _
          split
          next pz ps hps =>
            have hpsp := pauseStartF_proj e pz none (fireActions e slot.index
              (dueActions e slot.actionIndex t) { p with actionTime := t }).1
            refine ⟨DeadS_transfer hfired hpsp.1 hpsp.2.1 hpsp.2.2.1 hpsp.2.2.2.1, ?_⟩
            refine hfireT.append ?_
            rw [hpsp.2.2.2.2.2.2.2]
            exact NoK_pauseStart_other (dead_bind_index hfired)
          next hps =>
            split
            · have hnext := ih _ Call.next hfired trivial
              exact ⟨hnext.1, hfireT.append hnext.2⟩
            · have hupd := ih _ Call.update hfired trivial
              exact ⟨hupd.1, (hfireT.append NoK_playCmd).append hupd.2⟩
    | endSig =>
      rcases hcur : p.current with _ | slot
      · simp only [run, hcur]
        exact ⟨⟨hdc, hdp, hdi, hdr⟩, NoK_nil⟩
      · rcases hg : slot.index.bind (p.list.get? ·) with _ | e
        · rcases ha : p.activePause with _ | ap
          · simp only [run, hcur, hg, ha]
            refine ⟨⟨?_, hdp, hdi, hdr⟩, NoK_jsError⟩
            intro s hx
            injection hx with h2
            rw [← h2]
            exact hdc slot hcur
          · simp only [run, hcur, hg, ha]
            exact ⟨⟨hdc, hdp, hdi, hdr⟩, NoK_nil⟩
        · simp only [run, hcur, hg]
          exact ih _ _ ⟨hdc, hdp, hdi, hdr⟩ trivial
    | next =>
      rcases hcur : p.current with _ | slot
      · simp only [run, hcur]
        have hd1 : DeadS k ({ p with currentTimeout := none, current := none } : PL) :=
          ⟨by simp, hdp, hdi, hdr⟩
        have hstart := ih _ Call.start (preloadF_dead hd1).1 trivial
        split
        next slot3 hc3 =>
          split
          next k3 hk3 =>
            split
            · have hplay := ih _ Call.play hstart.1 trivial
              exact ⟨hplay.1, by simpa using (NoK_nil.append hstart.2).append hplay.2⟩
            · exact ⟨hstart.1, by simpa using (NoK_nil.append hstart.2).append NoK_nil⟩
          next hk3 =>
            exact ⟨hstart.1, by simpa using (NoK_nil.append hstart.2).append NoK_nil⟩
        next hc3 =>
          exact ⟨hstart.1, by simpa using (NoK_nil.append hstart.2).append NoK_nil⟩
      · simp only [run, hcur]
        have hd1 : DeadS k ({ { p with currentTimeout := none } with current := none, preloadList := p.preloadList ++ [{ slot with index := none }] } : PL) := by
          refine ⟨by simp, ?_, hdi, hdr⟩
          intro s hx
          rcases List.mem_append.mp hx with hx2 | hx2
          · exact hdp s hx2
          · simp at hx2; rw [hx2]; simp
        have hstart := ih _ Call.start (preloadF_dead hd1).1 trivial
        split
        next slot3 hc3 =>
          split
          next k3 hk3 =>
            split
            · have hplay := ih _ Call.play hstart.1 trivial
              exact ⟨hplay.1, (NoK_ended.append hstart.2).append hplay.2⟩
            · exact ⟨hstart.1, by simpa using (NoK_ended.append hstart.2).append NoK_nil⟩
          next hk3 =>
            exact ⟨hstart.1, by simpa using (NoK_ended.append hstart.2).append NoK_nil⟩
        next hc3 =>
          exact ⟨hstart.1, by simpa using (NoK_ended.append hstart.2).append NoK_nil⟩
    | start =>
      rcases hpl : p.preloadList with _ | ⟨slot, rest⟩
      · simp only [run, hpl]
        exact ⟨⟨by simp, by simp, hdi, hdr⟩, NoK_endedAll⟩
      · have hslot : slot.index ≠ some k := hdp slot (by rw [hpl]; simp)
        have hrest : ∀ s ∈ rest, s.index ≠ some k :=
          fun s hx => hdp s (by rw [hpl]; simp [hx])
        rcases hsi : slot.index with _ | m
        · simp only [run, hpl, hsi]
          refine ⟨⟨?_, hrest, hdi, hdr⟩, NoK_endedAll⟩
          intro s hx
          injection hx with h2
          rw [← h2]
          exact hslot
        · simp only [run, hpl, hsi]
          split
          · refine ⟨⟨?_, hrest, hdi, hdr⟩, NoK_nil⟩
            intro s hx
            injection hx with h2
            rw [← h2]
            exact hslot
          · rcases hg : p.list.get? m with _ | e
            · simp only [hg]
              refine ⟨⟨?_, hrest, hdi, hdr⟩, NoK_jsError⟩
              intro s hx
              injection hx with h2
              rw [← h2]
              exact hslot
            · have hreq : jsTruthy p.requestedCurrentTime = false := by
                rw [hdr]; rfl
              simp only [hg, hreq, Bool.false_eq_true, if_false]
              have hd1 : DeadS k (modifySlot { { p with current := some slot, preloadList := rest } with actionTime := EvTime.num 0 } (fun s => { s with actionIndex := some 0, pauseIndex := some 0 })) := by
                refine ⟨?_, hrest, hdi, hdr⟩
                intro s hx
                simp only [modifySlot, Option.map_some'] at hx
                injection hx with h2
                rw [← h2]
                exact hslot
              have hupd := ih _ Call.update hd1 trivial
              exact ⟨hupd.1, NoK_nextE.append hupd.2⟩
    | play =>
      rcases hcur : p.current with _ | slot
      · simp only [run, hcur, Option.isNone_none, if_pos]
        have hstart := ih _ Call.start ⟨hdc, hdp, hdi, hdr⟩ trivial
        split
        next hc1 =>
          exact ⟨hstart.1, hstart.2.append NoK_jsError⟩
        next slot1 hc1 =>
          split
          · exact ⟨hstart.1, hstart.2.append NoK_jsError⟩
          next m hsi =>
            split
            · exact ⟨hstart.1, hstart.2.append NoK_jsError⟩
            next e hg =>
              split
              · have hnext := ih _ Call.next hstart.1 trivial
                exact ⟨hnext.1, hstart.2.append hnext.2⟩
              · have hupd := ih _ Call.update hstart.1 trivial
                exact ⟨hupd.1, hstart.2.append hupd.2⟩
      · simp only [run, hcur, Option.isNone_some, Bool.false_eq_true, if_false]
        rcases hsi : slot.index with _ | m
        · simp only [hsi]
          exact ⟨⟨hdc, hdp, hdi, hdr⟩, by simpa using NoK_nil.append (NoK_jsError (k := k))⟩
        · simp only [hsi]
          rcases hg : p.list.get? m with _ | e
          · simp only [hg]
            exact ⟨⟨hdc, hdp, hdi, hdr⟩, by simpa using NoK_nil.append (NoK_jsError (k := k))⟩
          · simp only [hg]
            split
            · have hnext := ih _ Call.next ⟨hdc, hdp, hdi, hdr⟩ trivial
              exact ⟨hnext.1, by simpa using NoK_nil.append hnext.2⟩
            · have hupd := ih _ Call.update ⟨hdc, hdp, hdi, hdr⟩ trivial
              exact ⟨hupd.1, by simpa using NoK_nil.append hupd.2⟩
    | pauseEndC =>
      rcases ha : p.activePause with _ | ap
      · simp only [run, ha]
        exact ⟨⟨hdc, hdp, hdi, hdr⟩, NoK_nil⟩
      · simp only [run, ha]
        have hexec := ih ({ p with activePause := none } : PL)
          (Call.execE ap.entry ap.pause.time) ⟨hdc, hdp, hdi, hdr⟩ trivial
        exact ⟨hexec.1, NoK_cons_pauseEnd hexec.2⟩
    | timerFire =>
      rcases hto : p.currentTimeout with _ | ti
      · simp only [run, hto]
        exact ⟨⟨hdc, hdp, hdi, hdr⟩, NoK_nil⟩
      · simp only [run, hto]
        exact ih _ _ ⟨hdc, hdp, hdi, hdr⟩ trivial
    | pauseTimer =>
      rcases ha : p.activePause with _ | ap
      · simp only [run, ha]
        exact ⟨⟨hdc, hdp, hdi, hdr⟩, NoK_nil⟩
      · simp only [run, ha]
        exact ih _ Call.pauseEndC ⟨hdc, hdp, hdi, hdr⟩ trivial
    | posTick v =>
      rcases hcur : p.current with _ | slot
      · simp only [run, hcur]
        exact ⟨⟨hdc, hdp, hdi, hdr⟩, NoK_nil⟩
      · simp only [run, hcur]
        have hd1 : DeadS k (setVideoTime p v) := by
          refine ⟨?_, hdp, hdi, hdr⟩
          intro s hx
          simp only [setVideoTime, modifySlot, hcur, Option.map_some'] at hx
          injection hx with h2
          rw [← h2]
          exact hdc slot hcur
        exact ih _ Call.update hd1 trivial

lemma actIdxsOf_cons_pauseEnd (k i : Nat) (tag : Option Nat) (tr : List Ev) :
    actIdxsOf k (Ev.pauseEndE tag i :: tr) = actIdxsOf k tr := by
  simp [actIdxsOf, List.filterMap_cons]

lemma pstIdxsOf_cons_pauseEnd (k i : Nat) (tag : Option Nat) (tr : List Ev) :
    pstIdxsOf k (Ev.pauseEndE tag i :: tr) = pstIdxsOf k tr := by
  simp [pstIdxsOf, List.filterMap_cons]

lemma pstIdxsOf_map_self (k : Nat) (l : List Nat) :
    pstIdxsOf k (l.map (Ev.pauseStartE (some k))) = l := by
  induction l with
  | nil => rfl
  | cons a l ih => simp [pstIdxsOf, List.filterMap_cons] at ih ⊢; exact ih

/-- The `forEach` over a due batch, phrased directly on the due lists:
the cursor ends at the bumped position and the trace is the batch's
index list. -/
lemma fireActions_due (e : Entry) (hA : e.actions.Nodup) (tag : Option Nat)
    (ca : Nat) (t : EvTime) (p : PL) (slot : Slot) (hcur : p.current = some slot)
    (hsa : slot.actionIndex = some ca) :
    fireActions e tag (dueActions e (some ca) t) p =
      ({ p with current := some { slot with
           actionIndex := some (bumpCursor ca (dueActIdxs e (some ca) t)) } },
       (dueActIdxs e (some ca) t).map (Ev.action tag)) := by
  have hspec := fireActions_spec e tag
    (filterIdxP (fun a i => a.time == t && cursorLE (some ca) i) e.actions) p slot hcur
    (fun x hx => indexOf_filterIdxP hA hx)
  have hdue : dueActions e (some ca) t =
      (filterIdxP (fun a i => a.time == t && cursorLE (some ca) i) e.actions).map (·.2) := rfl
  rw [hdue, hspec]
  have hidx : dueActIdxs e (some ca) t =
      (filterIdxP (fun a i => a.time == t && cursorLE (some ca) i) e.actions).map (·.1) := rfl
  rw [Prod.mk.injEq]
  constructor
  · rcases hlast : (filterIdxP (fun a i => a.time == t && cursorLE (some ca) i)
        e.actions).getLast? with _ | x
    · have : (filterIdxP (fun a i => a.time == t && cursorLE (some ca) i)
          e.actions) = [] := List.getLast?_eq_none_iff.mp hlast
      simp only [hlast, bumpCursor, hidx, this, List.map_nil, List.getLast?_nil, hsa]
    · have hmlast : (dueActIdxs e (some ca) t).getLast? = some x.1 := by
        rw [hidx, List.getLast?_map, hlast]
        rfl
      simp only [hlast, bumpCursor, hmlast]
  · rw [hidx, List.map_map]
    rfl

/-- The head of a non-empty due-pause batch: its list index heads the
due-index batch and `indexOf` recovers exactly that index. -/
lemma duePause_head (e : Entry) (hP : e.pauses.Nodup) {cp : Nat} {t : EvTime}
    {pz : Pause} {rest : List Pause}
    (h : duePauses e (some cp) t = pz :: rest) :
    ∃ i1 irest, duePauseIdxs e (some cp) t = i1 :: irest ∧
      e.pauses.indexOf pz = i1 ∧ cp ≤ i1 := by
  have hdue : duePauses e (some cp) t =
      (filterIdxP (fun q i => q.time == t && cursorLE (some cp) i) e.pauses).map (·.2) := rfl
  rw [hdue] at h
  rcases hL : filterIdxP (fun q i => q.time == t && cursorLE (some cp) i) e.pauses
    with _ | ⟨x, xs⟩
  · rw [hL] at h; simp at h
  · rw [hL] at h
    simp only [List.map_cons, List.cons.injEq] at h
    refine ⟨x.1, xs.map (·.1), ?_, ?_, ?_⟩
    · show (filterIdxP (fun q i => q.time == t && cursorLE (some cp) i) e.pauses).map (·.1) = _
      rw [hL]
      rfl
    · rw [← h.1]
      exact indexOf_filterIdxP hP (by rw [hL]; simp)
    · have : x.1 ∈ duePauseIdxs e (some cp) t := by
        show x.1 ∈ (filterIdxP (fun q i => q.time == t && cursorLE (some cp) i) e.pauses).map (·.1)
        rw [hL]
        simp
      exact duePauseIdxs_lo e cp t x.1 this

/-- The live-clip invariant: clip `k` is current with live cursors
`ca`/`cp`, the environment (active pause, armed timer) references the
clip's own entry, and no slot can re-claim the clip. -/
def LiveS (k : Nat) (e : Entry) (ca cp : Nat) (p : PL) : Prop :=
  (∃ slot, p.current = some slot ∧ slot.index = some k ∧
      slot.actionIndex = some ca ∧ slot.pauseIndex = some cp) ∧
  p.list.get? k = some e ∧
  (∀ ap, p.activePause = some ap → ap.entry = e) ∧
  (∀ ti, p.currentTimeout = some ti → ti.entry = e) ∧
  (∀ s ∈ p.preloadList, s.index ≠ some k) ∧
  k < p.preloadIndex ∧
  p.requestedCurrentTime = none

/-- Reset-free calls whose event executor can only be entered with the
live clip's own entry (as all the runtime's callers do). -/
def StepCall (e : Entry) : Call → Prop := fun c =>
  match c with
  | .setCurrentTime _ => False
  | .setCurrentCurrentTime _ => False
  | .setIndex _ => False
  | .execE e2 _ => e2 = e
  | _ => True

lemma Bnd_of_nil {ca : Nat} {l : List Nat} (h : l = []) : Bnd ca ca l :=
  h ▸ Bnd.nil

lemma Bnd_single {lo i : Nat} (h : lo ≤ i) : Bnd lo (i + 1) [i] :=
  ⟨List.pairwise_singleton _ _, fun j hj => by simp at hj; omega⟩

lemma pauseStartF_eq (e : Entry) (pz : Pause) (durOpt : Option ℤ) (p : PL) (slot : Slot)
    (hcur : p.current = some slot) :
    pauseStartF e pz durOpt p =
      ({ p with current := some { slot with pauseIndex := some (e.pauses.indexOf pz + 1) }, activePause := some (ActivePause.mk e pz (durOpt.getD pz.duration)) },
       [Ev.pauseCmd, Ev.pauseStartE slot.index (e.pauses.indexOf pz)]) := by
  simp [pauseStartF, modifySlot, hcur]

/-- While clip `k` is live, every reset-free call fires its events with
strictly increasing indices bounded below by the incoming cursors,
advances the cursors past everything fired, and either keeps the clip
live or ends its instance for good. -/
lemma run_live (k : Nat) (e : Entry) (hA : e.actions.Nodup) (hP : e.pauses.Nodup) :
    ∀ (fuel : Nat) (p : PL) (c : Call) (ca cp : Nat),
      LiveS k e ca cp p → StepCall e c →
      ∃ ca2 cp2, ca ≤ ca2 ∧ cp ≤ cp2 ∧
        (LiveS k e ca2 cp2 (run fuel p c).1 ∨ DeadS k (run fuel p c).1) ∧
        Bnd ca ca2 (actIdxsOf k (run fuel p c).2) ∧
        Bnd cp cp2 (pstIdxsOf k (run fuel p c).2) := by
  intro fuel
  induction fuel with
  | zero =>
    intro p c ca cp hl _
    exact ⟨ca, cp, le_refl _, le_refl _, Or.inl hl, Bnd.nil, Bnd.nil⟩
  | succ fuel ih =>
    intro p c ca cp hl hsc
    obtain ⟨⟨slot, hcur, hsi, hsa, hsp⟩, hent, hapE, htoE, hpre, hpi, hreq⟩ := hl
    cases c with
    | setCurrentTime t => exact absurd hsc (by simp [StepCall])
    | setCurrentCurrentTime t => exact absurd hsc (by simp [StepCall])
    | setIndex i => exact absurd hsc (by simp [StepCall])
    | update =>
      have hl' : LiveS k e ca cp ({ p with currentTimeout := none, current := some slot } : PL) :=
        ⟨⟨slot, rfl, hsi, hsa, hsp⟩, hent, hapE, by simp, hpre, hpi, hreq⟩
      simp only [run, hcur, hsi, hent, hsa, hsp]
      rcases hw : nextWakeTime e (some ca) (some cp) slot.videoTime with _ | m
      · simp only [hw]
        exact ⟨ca, cp, le_refl _, le_refl _, Or.inl hl', Bnd.nil, Bnd.nil⟩
      · simp only [hw]
        by_cases hm : m = slot.videoTime
        · rw [if_pos hm]
          exact ih _ (Call.execE e (EvTime.num m)) ca cp hl' rfl
        · rw [if_neg hm]
          refine ⟨ca, cp, le_refl _, le_refl _, Or.inl ?_, Bnd.nil, Bnd.nil⟩
          refine ⟨⟨slot, by simp [hcur], hsi, hsa, hsp⟩, hent, hapE, ?_, hpre, hpi, hreq⟩
          intro ti h2
          injection h2 with h3
          rw [← h3]
    | execE e2 t =>
      have he2 : e2 = e := hsc
      rw [he2]
      rcases ha : p.activePause with _ | ap
      · simp only [run, ha, hcur, hsi, hsa, hsp]
        rw [fireActions_due e hA (some k) ca t
          ({ p with actionTime := t, current := some slot, activePause := none } : PL)
          slot rfl hsa]
        have hbnd := dueActIdxs_bnd e ca t
        rcases hdps : duePauses e (some cp) t with _ | ⟨pz, rest⟩
        · simp only [hdps]
          by_cases ht : t = EvTime.endS
          · rw [if_pos ht]
            have hl1 : LiveS k e (bumpCursor ca (dueActIdxs e (some ca) t)) cp
                ({ p with actionTime := t, current := some { slot with actionIndex := some (bumpCursor ca (dueActIdxs e (some ca) t)) }, activePause := none } : PL) := by
              refine ⟨⟨{ slot with actionIndex := some (bumpCursor ca (dueActIdxs e (some ca) t)) }, rfl, hsi, rfl, hsp⟩, hent, ?_, htoE, hpre, hpi, hreq⟩
              intro ap2 h2
              exact absurd h2 (by simp)
            obtain ⟨ca3, cp3, h1, h2, h3, h4, h5⟩ := ih _ Call.next
              (bumpCursor ca (dueActIdxs e (some ca) t)) cp hl1 trivial
            refine ⟨ca3, cp3, le_trans hbnd.2 h1, h2, h3, ?_, ?_⟩
            · rw [actIdxsOf_append, actIdxsOf_map_self]
              exact Bnd_append hbnd.2 h1 hbnd.1 h4
            · rw [pstIdxsOf_append, pstIdxsOf_map_act, List.nil_append]
              exact h5
          · rw [if_neg ht]
            have hl1 : LiveS k e (bumpCursor ca (dueActIdxs e (some ca) t)) cp
                ({ p with actionTime := t, current := some { slot with actionIndex := some (bumpCursor ca (dueActIdxs e (some ca) t)) }, activePause := none } : PL) := by
              refine ⟨⟨{ slot with actionIndex := some (bumpCursor ca (dueActIdxs e (some ca) t)) }, rfl, hsi, rfl, hsp⟩, hent, ?_, htoE, hpre, hpi, hreq⟩
              intro ap2 h2
              exact absurd h2 (by simp)
            obtain ⟨ca3, cp3, h1, h2, h3, h4, h5⟩ := ih _ Call.update
              (bumpCursor ca (dueActIdxs e (some ca) t)) cp hl1 trivial
            refine ⟨ca3, cp3, le_trans hbnd.2 h1, h2, h3, ?_, ?_⟩
            · rw [actIdxsOf_append, actIdxsOf_append, actIdxsOf_map_self]
              have hmid : actIdxsOf k [Ev.playCmd] = [] := rfl
              rw [hmid, List.append_nil]
              exact Bnd_append hbnd.2 h1 hbnd.1 h4
            · rw [pstIdxsOf_append, pstIdxsOf_append, pstIdxsOf_map_act]
              have hmid : pstIdxsOf k [Ev.playCmd] = [] := rfl
              rw [hmid, List.nil_append, List.nil_append]
              exact h5
        · simp only [hdps]
          obtain ⟨i1, irest, hpidx, hIdxOf, hi1⟩ := duePause_head e hP hdps
          rw [pauseStartF_eq e pz none
            ({ p with actionTime := t, current := some { slot with actionIndex := some (bumpCursor ca (dueActIdxs e (some ca) t)) }, activePause := none } : PL)
            ({ slot with actionIndex := some (bumpCursor ca (dueActIdxs e (some ca) t)) })
            rfl, hIdxOf]
          refine ⟨bumpCursor ca (dueActIdxs e (some ca) t), i1 + 1, hbnd.2,
            by omega, Or.inl ?_, ?_, ?_⟩
          · refine ⟨⟨{ slot with actionIndex := some (bumpCursor ca (dueActIdxs e (some ca) t)), pauseIndex := some (i1 + 1) }, rfl, hsi, rfl, rfl⟩, hent, ?_, htoE, hpre, hpi, hreq⟩
            intro ap2 h2
            injection h2 with h3
            rw [← h3]
          · rw [actIdxsOf_append, actIdxsOf_map_self]
            have hmid : actIdxsOf k [Ev.pauseCmd,
                Ev.pauseStartE ({ slot with actionIndex := some (bumpCursor ca (dueActIdxs e (some ca) t)) } : Slot).index i1] = [] :=
              actIdxsOf_pauseStart k i1 _
            rw [hmid, List.append_nil]
            exact hbnd.1
          · rw [pstIdxsOf_append, pstIdxsOf_map_act, List.nil_append]
            have hmid : ({ slot with actionIndex := some (bumpCursor ca (dueActIdxs e (some ca) t)) } : Slot).index = some k := hsi
            rw [show pstIdxsOf k [Ev.pauseCmd,
                Ev.pauseStartE ({ slot with actionIndex := some (bumpCursor ca (dueActIdxs e (some ca) t)) } : Slot).index i1] =
                if ({ slot with actionIndex := some (bumpCursor ca (dueActIdxs e (some ca) t)) } : Slot).index = some k then [i1] else []
              from pstIdxsOf_pauseStart k i1 _, hmid, if_pos rfl]
            exact Bnd_single hi1
      · simp only [run, ha]
        exact ⟨ca, cp, le_refl _, le_refl _,
          Or.inl ⟨⟨slot, hcur, hsi, hsa, hsp⟩, hent, hapE, htoE, hpre, hpi, hreq⟩,
          Bnd.nil, Bnd.nil⟩
    | endSig =>
      have hbind : slot.index.bind (p.list.get? ·) = some e := by
        rw [hsi]
        simpa using hent
      simp only [run, hcur, hbind]
      exact ih _ (Call.execE e EvTime.endS) ca cp
        ⟨⟨slot, hcur, hsi, hsa, hsp⟩, hent, hapE, htoE, hpre, hpi, hreq⟩ rfl
    | next =>
      simp only [run, hcur]
      have hdmid : DeadS k ({ { p with currentTimeout := none } with current := none, preloadList := p.preloadList ++ [{ slot with index := none }] } : PL) := by
        refine ⟨by simp, ?_, hpi, hreq⟩
        intro s hx
        rcases List.mem_append.mp hx with hx2 | hx2
        · exact hpre s hx2
        · simp at hx2; rw [hx2]; simp
      have hstart := run_dead k fuel _ Call.start (preloadF_dead hdmid).1 trivial
      split
      next slot3 hc3 =>
        split
        next k3 hk3 =>
          split
          · have hplay := run_dead k fuel _ Call.play hstart.1 trivial
            exact ⟨ca, cp, le_refl _, le_refl _, Or.inr hplay.1,
              Bnd_of_nil (((NoK_ended.append hstart.2).append hplay.2).1),
              Bnd_of_nil (((NoK_ended.append hstart.2).append hplay.2).2)⟩
          · exact ⟨ca, cp, le_refl _, le_refl _, Or.inr hstart.1,
              Bnd_of_nil (((NoK_ended.append hstart.2).append NoK_nil).1),
              Bnd_of_nil (((NoK_ended.append hstart.2).append NoK_nil).2)⟩
        next hk3 =>
          exact ⟨ca, cp, le_refl _, le_refl _, Or.inr hstart.1,
            Bnd_of_nil (((NoK_ended.append hstart.2).append NoK_nil).1),
            Bnd_of_nil (((NoK_ended.append hstart.2).append NoK_nil).2)⟩
      next hc3 =>
        exact ⟨ca, cp, le_refl _, le_refl _, Or.inr hstart.1,
          Bnd_of_nil (((NoK_ended.append hstart.2).append NoK_nil).1),
          Bnd_of_nil (((NoK_ended.append hstart.2).append NoK_nil).2)⟩
    | start =>
      rcases hpl : p.preloadList with _ | ⟨slot1, rest1⟩
      · simp only [run, hpl]
        exact ⟨ca, cp, le_refl _, le_refl _, Or.inr ⟨by simp, by simp, hpi, hreq⟩,
          Bnd_of_nil NoK_endedAll.1, Bnd_of_nil NoK_endedAll.2⟩
      · have hslot1 : slot1.index ≠ some k := hpre slot1 (by rw [hpl]; simp)
        have hrest1 : ∀ s ∈ rest1, s.index ≠ some k :=
          fun s hx => hpre s (by rw [hpl]; simp [hx])
        rcases hsi1 : slot1.index with _ | m
        · simp only [run, hpl, hsi1]
          refine ⟨ca, cp, le_refl _, le_refl _, Or.inr ⟨?_, hrest1, hpi, hreq⟩,
            Bnd_of_nil NoK_endedAll.1, Bnd_of_nil NoK_endedAll.2⟩
          intro s hx
          injection hx with h2
          rw [← h2]
          exact hslot1
        · simp only [run, hpl, hsi1]
          split
          · refine ⟨ca, cp, le_refl _, le_refl _, Or.inr ⟨?_, hrest1, hpi, hreq⟩,
              Bnd.nil, Bnd.nil⟩
            intro s hx
            injection hx with h2
            rw [← h2]
            exact hslot1
          · rcases hg : p.list.get? m with _ | e1
            · simp only [hg]
              refine ⟨ca, cp, le_refl _, le_refl _, Or.inr ⟨?_, hrest1, hpi, hreq⟩,
                Bnd_of_nil NoK_jsError.1, Bnd_of_nil NoK_jsError.2⟩
              intro s hx
              injection hx with h2
              rw [← h2]
              exact hslot1
            · have hreqf : jsTruthy p.requestedCurrentTime = false := by
                rw [hreq]; rfl
              simp only [hg, hreqf, Bool.false_eq_true, if_false]
              have hd1 : DeadS k (modifySlot { { p with current := some slot1, preloadList := rest1 } with actionTime := EvTime.num 0 } (fun s => { s with actionIndex := some 0, pauseIndex := some 0 })) := by
                refine ⟨?_, hrest1, hpi, hreq⟩
                intro s hx
                simp only [modifySlot, Option.map_some'] at hx
                injection hx with h2
                rw [← h2]
                exact hslot1
              have hupd := run_dead k fuel _ Call.update hd1 trivial
              exact ⟨ca, cp, le_refl _, le_refl _, Or.inr hupd.1,
                Bnd_of_nil ((NoK_nextE.append hupd.2).1),
                Bnd_of_nil ((NoK_nextE.append hupd.2).2)⟩
    | play =>
      simp only [run, hcur, Option.isNone_some, Bool.false_eq_true, if_false,
        hsi, hent, List.nil_append]
      split
      · exact ih _ Call.next ca cp
          ⟨⟨slot, hcur, hsi, hsa, hsp⟩, hent, hapE, htoE, hpre, hpi, hreq⟩ trivial
      · exact ih _ Call.update ca cp
          ⟨⟨slot, hcur, hsi, hsa, hsp⟩, hent, hapE, htoE, hpre, hpi, hreq⟩ trivial
    | pauseEndC =>
      rcases ha : p.activePause with _ | ap
      · simp only [run, ha]
        exact ⟨ca, cp, le_refl _, le_refl _,
          Or.inl ⟨⟨slot, hcur, hsi, hsa, hsp⟩, hent, hapE, htoE, hpre, hpi, hreq⟩,
          Bnd.nil, Bnd.nil⟩
      · simp only [run, ha]
        have hape : ap.entry = e := hapE ap ha
        have hl1 : LiveS k e ca cp ({ p with activePause := none } : PL) :=
          ⟨⟨slot, hcur, hsi, hsa, hsp⟩, hent, by simp, htoE, hpre, hpi, hreq⟩
        obtain ⟨ca2, cp2, h1, h2, h3, h4, h5⟩ :=
          ih ({ p with activePause := none } : PL)
            (Call.execE ap.entry ap.pause.time) ca cp hl1 hape
        refine ⟨ca2, cp2, h1, h2, h3, ?_, ?_⟩
        · rw [actIdxsOf_cons_pauseEnd]
          exact h4
        · rw [pstIdxsOf_cons_pauseEnd]
          exact h5
    | timerFire =>
      rcases hto : p.currentTimeout with _ | ti
      · simp only [run, hto]
        exact ⟨ca, cp, le_refl _, le_refl _,
          Or.inl ⟨⟨slot, hcur, hsi, hsa, hsp⟩, hent, hapE, htoE, hpre, hpi, hreq⟩,
          Bnd.nil, Bnd.nil⟩
      · simp only [run, hto]
        have hti : ti.entry = e := htoE ti hto
        have hl1 : LiveS k e ca cp ({ p with currentTimeout := none } : PL) :=
          ⟨⟨slot, hcur, hsi, hsa, hsp⟩, hent, hapE, by simp, hpre, hpi, hreq⟩
        exact ih _ (Call.execE ti.entry (EvTime.num ti.time)) ca cp hl1 hti
    | pauseTimer =>
      rcases ha : p.activePause with _ | ap
      · simp only [run, ha]
        exact ⟨ca, cp, le_refl _, le_refl _,
          Or.inl ⟨⟨slot, hcur, hsi, hsa, hsp⟩, hent, hapE, htoE, hpre, hpi, hreq⟩,
          Bnd.nil, Bnd.nil⟩
      · simp only [run, ha]
        exact ih _ Call.pauseEndC ca cp
          ⟨⟨slot, hcur, hsi, hsa, hsp⟩, hent, hapE, htoE, hpre, hpi, hreq⟩ trivial
    | posTick v =>
      simp only [run, hcur]
      refine ih _ Call.update ca cp ?_ trivial
      refine ⟨⟨{ slot with videoTime := v }, ?_, hsi, hsa, hsp⟩,
        hent, hapE, htoE, hpre, hpi, hreq⟩
      simp [setVideoTime, modifySlot, hcur]

lemma StepCall_safe {e : Entry} {c : Call} (h : StepCall e c) : SafeCall c := by
  cases c <;> trivial

lemma runSeq_dead (k : Nat) (fuel : Nat) :
    ∀ (cs : List Call) (p : PL), DeadS k p → (∀ c ∈ cs, SafeCall c) →
    DeadS k (runSeq fuel p cs).1 ∧ NoK k (runSeq fuel p cs).2 := by
  intro cs
  induction cs with
  | nil => intro p hd _; exact ⟨hd, NoK_nil⟩
  | cons c cs ihc =>
    intro p hd hsc
    simp only [runSeq]
    have h1 := run_dead k fuel p c hd (hsc c (by simp))
    have h2 := ihc (run fuel p c).1 h1.1 (fun c2 hc2 => hsc c2 (by simp [hc2]))
    exact ⟨h2.1, h1.2.append h2.2⟩

lemma runSeq_live (k : Nat) (e : Entry) (hA : e.actions.Nodup)
    (hP : e.pauses.Nodup) (fuel : Nat) :
    ∀ (cs : List Call) (p : PL) (ca cp : Nat),
      LiveS k e ca cp p → (∀ c ∈ cs, StepCall e c) →
      ∃ ca2 cp2, ca ≤ ca2 ∧ cp ≤ cp2 ∧
        (LiveS k e ca2 cp2 (runSeq fuel p cs).1 ∨ DeadS k (runSeq fuel p cs).1) ∧
        Bnd ca ca2 (actIdxsOf k (runSeq fuel p cs).2) ∧
        Bnd cp cp2 (pstIdxsOf k (runSeq fuel p cs).2) := by
  intro cs
  induction cs with
  | nil =>
    intro p ca cp hl _
    exact ⟨ca, cp, le_refl _, le_refl _, Or.inl hl, Bnd.nil, Bnd.nil⟩
  | cons c cs ihc =>
    intro p ca cp hl hsc
    simp only [runSeq]
    obtain ⟨ca2, cp2, h1, h2, h3, h4, h5⟩ :=
      run_live k e hA hP fuel p c ca cp hl (hsc c (by simp))
    rcases h3 with hlive | hdead
    · obtain ⟨ca3, cp3, g1, g2, g3, g4, g5⟩ :=
        ihc (run fuel p c).1 ca2 cp2 hlive (fun c2 hc2 => hsc c2 (by simp [hc2]))
      refine ⟨ca3, cp3, le_trans h1 g1, le_trans h2 g2, g3, ?_, ?_⟩
      · rw [actIdxsOf_append]
        exact Bnd_append h1 g1 h4 g4
      · rw [pstIdxsOf_append]
        exact Bnd_append h2 g2 h5 g5
    · have hrest := runSeq_dead k fuel cs (run fuel p c).1 hdead
        (fun c2 hc2 => StepCall_safe (hsc c2 (by simp [hc2])))
      refine ⟨ca2, cp2, h1, h2, Or.inr hrest.1, ?_, ?_⟩
      · rw [actIdxsOf_append, hrest.2.1, List.append_nil]
        exact h4
      · rw [pstIdxsOf_append, hrest.2.2, List.append_nil]
        exact h5

/-- **C1** — Monotonic at-most-once firing.  Over any sequence of
reset-free runtime calls on a live clip instance `k`, the `action`
events and the `pauseStart` events fired for that instance carry
strictly increasing list indices: once the event at index `i` has
fired, no same-kind event at an index `< i` (nor `i` itself) fires
again.  Every fired index is at least the incoming cursor, and while
the clip is still current its cursors exceed every fired index — the
cursor is set to `index + 1` before the event's side effects are
emitted, so a re-entrant or repeated call at the same position never
re-fires an event. -/
theorem c1_monotonic_at_most_once_firing
    (k : Nat) (e : Entry) (ca cp : Nat) (p : PL) (fuel : Nat) (cs : List Call)
    (hA : e.actions.Nodup) (hP : e.pauses.Nodup)
    (hl : LiveS k e ca cp p) (hcs : ∀ c ∈ cs, StepCall e c) :
    (actIdxsOf k (runSeq fuel p cs).2).Pairwise (· < ·) ∧
    (∀ i ∈ actIdxsOf k (runSeq fuel p cs).2, ca ≤ i) ∧
    (pstIdxsOf k (runSeq fuel p cs).2).Pairwise (· < ·) ∧
    (∀ i ∈ pstIdxsOf k (runSeq fuel p cs).2, cp ≤ i) ∧
    (∀ slot2, (runSeq fuel p cs).1.current = some slot2 → slot2.index = some k →
      (∀ i ∈ actIdxsOf k (runSeq fuel p cs).2, ∀ a2, slot2.actionIndex = some a2 → i < a2) ∧
      (∀ i ∈ pstIdxsOf k (runSeq fuel p cs).2, ∀ p2, slot2.pauseIndex = some p2 → i < p2)) := by
  obtain ⟨ca2, cp2, h1, h2, h3, h4, h5⟩ := runSeq_live k e hA hP fuel cs p ca cp hl hcs
  refine ⟨h4.1, fun i hi => (h4.2 i hi).1, h5.1, fun i hi => (h5.2 i hi).1, ?_⟩
  intro slot2 hcur2 hsi2
  rcases h3 with hlive | hdead
  · obtain ⟨slot3, hc3, hi3, ha3, hp3⟩ := hlive.1
    have hs23 : slot2 = slot3 := by
      have hx := hc3.symm.trans hcur2
      injection hx with hh
      exact hh.symm
    subst hs23
    constructor
    · intro i hi a2 hA2
      rw [ha3] at hA2
      injection hA2 with hh
      rw [← hh]
      exact (h4.2 i hi).2
    · intro i hi p2 hP2
      rw [hp3] at hP2
      injection hP2 with hh
      rw [← hh]
      exact (h5.2 i hi).2
  · exact absurd hsi2 (hdead.1 slot2 hcur2)

/-- A clip with two coincident actions and two stacked pauses, used to
exercise the monotonicity theorem on a concrete run. -/
def c1e : Entry where
  videoDuration := some 10
  actions := [{ time := .num 2 }, { time := .num 2, title := some 1 }]
  pauses := [{ time := .num 2, duration := 1 }, { time := .num 2, duration := 3 }]

/-- A live state playing `c1e` at position 2 with fresh cursors. -/
def c1p : PL where
  list := [c1e]
  preloadIndex := 3
  preloadList := [{}, {}]
  current := some { index := some 0, videoTime := 2, actionIndex := some 0, pauseIndex := some 0 }

/-- The call script for the C1 witness: a repeated (re-entrant)
executor invocation at the same position, the two pause-completion
timers, and a final position update. -/
def c1cs : List Call :=
  [Call.execE c1e (.num 2), Call.execE c1e (.num 2), Call.pauseTimer,
   Call.pauseTimer, Call.update]

theorem c1_monotonic_witness :
    (actIdxsOf 0 (runSeq 10 c1p c1cs).2).Pairwise (· < ·) ∧
    (∀ i ∈ actIdxsOf 0 (runSeq 10 c1p c1cs).2, 0 ≤ i) ∧
    (pstIdxsOf 0 (runSeq 10 c1p c1cs).2).Pairwise (· < ·) ∧
    (∀ i ∈ pstIdxsOf 0 (runSeq 10 c1p c1cs).2, 0 ≤ i) ∧
    (∀ slot2, (runSeq 10 c1p c1cs).1.current = some slot2 → slot2.index = some 0 →
      (∀ i ∈ actIdxsOf 0 (runSeq 10 c1p c1cs).2, ∀ a2, slot2.actionIndex = some a2 → i < a2) ∧
      (∀ i ∈ pstIdxsOf 0 (runSeq 10 c1p c1cs).2, ∀ p2, slot2.pauseIndex = some p2 → i < p2)) :=
  c1_monotonic_at_most_once_firing 0 c1e 0 0 c1p 10 c1cs (by decide) (by decide)
    ⟨⟨{ index := some 0, videoTime := 2, actionIndex := some 0, pauseIndex := some 0 }, rfl, rfl, rfl, rfl⟩, rfl, by simp [c1p], by simp [c1p], by decide, by decide, rfl⟩
    (by intro c hc; fin_cases hc <;> trivial)

/-- The clip of the spec's partial-pause example: duration 10 with one
pause at `time = 5, duration = 4` (window `[5, 9)`). -/
def c5e : Entry where
  videoDuration := some 10
  pauses := [{ time := .num 5, duration := 4 }]

/-- Playing `c5e` from the start. -/
def c5p : PL where
  list := [c5e]
  preloadIndex := 3
  current := some { index := some 0, videoTime := 0, actionIndex := some 0, pauseIndex := some 0 }

/-- **C5** (code bug) — Seeking to virtual time 6, strictly inside the
pause window `[5, 9)`, clamps the engine position to 5 but re-enters
the pause with remaining duration `target − pause.time = 1` second,
not the claimed `pause.time + pause.duration − target = 3` seconds
(`_pauseStart` receives `time - pause.time` at line 570).  The code's
own virtual-position getter then reports position 8 instead of 6.
The spec's example (`target = 7 → remaining = 2`) only agrees because
7 is the exact midpoint of the window, where the two formulas
coincide. -/
theorem c5_partial_pause_remaining_bug :
    ((run 10 c5p (Call.setCurrentTime 6)).1.activePause.map (·.armed) = some 1) ∧
    ((run 10 c5p (Call.setCurrentTime 6)).1.current.map (·.videoTime) = some 5) ∧
    ((5 : ℤ) + 4 - 6 = 3) ∧ ((1 : ℤ) ≠ 3) ∧
    (currentTimeGet (run 10 c5p (Call.setCurrentTime 6)).1 0 = some 8) ∧
    ((run 10 c5p (Call.setCurrentTime 7)).1.activePause.map (·.armed) = some 2) := by
  decide

/-- A pauseless clip of duration 10. -/
def c7e : Entry where
  videoDuration := some 10

/-- Playing `c7e` at engine position 0. -/
def c7p : PL where
  list := [c7e]
  preloadIndex := 3
  current := some { index := some 0, videoTime := 0, actionIndex := some 0, pauseIndex := some 0 }

/-- **C7** (code bug) — Seeking to virtual time 3, strictly inside a
clip with known duration and far from any pause window, is a complete
no-op: `set currentCurrentTime` only assigns the engine position
inside its `if (pauses.length)` branch (lines 563-580), so when the
target passes no pause the seek writes nothing and reading the
virtual time back yields the old position 0, not ≈ 3. -/
theorem c7_seek_roundtrip_bug :
    (run 10 c7p (Call.setCurrentTime 3) = (c7p, [])) ∧
    (currentTimeGet (run 10 c7p (Call.setCurrentTime 3)).1 0 = some 0) ∧
    ((0 : ℤ) ≠ 3) := by
  decide

/-- The pause of the C8 scenario. -/
def c8pause : Pause := { time := .num 5, duration := 4 }

/-- Clip 0 of the C8 scenario: in a 4-second pause at position 5. -/
def c8e0 : Entry where
  videoDuration := some 10
  pauses := [c8pause]

/-- Clip 1 of the C8 scenario, preloaded and ready. -/
def c8e1 : Entry where
  videoDuration := some 7
  actions := [{ time := .num 5 }]

/-- Mid-pause state on clip 0: `activePause` is set with its 4-second
timer armed, clip 1 is preloaded. -/
def c8p : PL where
  list := [c8e0, c8e1]
  preloadIndex := 2
  preloadList := [{ index := some 1 }, {}]
  current := some { index := some 0, videoTime := 5, actionIndex := some 0, pauseIndex := some 1 }
  activePause := some ⟨c8e0, c8pause, 4⟩

/-- **C8** (code bug) — `next()` (lines 446-465) cancels only
`this.currentTimeout`; it neither reverts nor cancels the active
pause.  After the clip change the stale `activePause` (with its armed
timer) survives untouched and no `pauseEnd` is emitted, and when the
stale pause timer then fires it mutates post-jump state: it emits
`pauseEnd` during clip 1, re-resolves the *old* entry's events at the
pause time, and re-enters the old clip's pause on the new clip —
overwriting clip 1's pause cursor and suspending its playback. -/
theorem c8_stale_pause_timer_bug :
    ((run 20 c8p Call.next).1.activePause = c8p.activePause) ∧
    (c8p.activePause = some ⟨c8e0, c8pause, 4⟩) ∧
    ((run 20 c8p Call.next).2.all (fun ev =>
      match ev with
      | .pauseEndE _ _ => false
      | _ => true)) ∧
    ((run 20 c8p Call.next).1.current.map (·.index) = some (some 1)) ∧
    ((run 20 (run 20 c8p Call.next).1 Call.pauseTimer).2 =
      [Ev.pauseEndE (some 1) 0, Ev.pauseCmd, Ev.pauseStartE (some 1) 0]) ∧
    ((run 20 (run 20 c8p Call.next).1 Call.pauseTimer).1.activePause.isSome) := by
  decide

/-- The due-set as claim C2 words it: every action whose `time ≤
position` (end-sentinel never matched by a numeric position) past the
cursor, in list order. -/
def specDueActions (e : Entry) (aIdx : Option Nat) (pos : ℤ) : List Action :=
  filterIdx (fun a i => timeLE a.time pos && cursorLE aIdx i) e.actions

/-- A clip with one unfired action at time 3. -/
def c2e : Entry where
  videoDuration := some 10
  actions := [{ time := .num 3 }]

/-- Playing `c2e` with the engine position already at 5. -/
def c2p : PL where
  list := [c2e]
  preloadIndex := 3
  current := some { index := some 0, videoTime := 5, actionIndex := some 0, pauseIndex := some 0 }

/-- **C2** (counterexample) — At position 5 with the unfired action at
time 3 past the cursor, the claim's `time ≤ position` due set is
nonempty, yet the position update fires nothing, arms no timer, and
leaves the cursor untouched: the implementation matches due events by
`time === position` (and scans only `time >= position` for the wake
time), so an event whose time is already strictly below the position
is silently skipped forever. -/
theorem c2_due_le_position_counterexample :
    specDueActions c2e (some 0) 5 = [{ time := .num 3 }] ∧
    run 10 c2p Call.update = ({ c2p with currentTimeout := none }, []) ∧
    (run 10 c2p Call.update).1.current = c2p.current := by
  decide

/-- Membership in an indexed filter, value form. -/
lemma mem_filterIdx {α : Type _} {f : α → Nat → Bool} {l : List α} {a : α} :
    a ∈ filterIdx f l ↔ ∃ i, l.get? i = some a ∧ f a i = true := by
  unfold filterIdx
  rw [List.mem_map]
  constructor
  · rintro ⟨x, hx, rfl⟩
    exact ⟨x.1, (mem_filterIdxP.mp (by exact hx)).1, (mem_filterIdxP.mp (by exact hx)).2⟩
  · rintro ⟨i, hget, hf⟩
    exact ⟨(i, a), mem_filterIdxP.mpr ⟨hget, hf⟩, rfl⟩

/-- Every remaining (not-before-position) action has a numeric time at
or after the position. -/
lemma nextActionsF_time {e : Entry} {aIdx : Option Nat} {pos : ℤ} {a : Action}
    (h : a ∈ nextActionsF e aIdx pos) : ∃ x, evNum a.time = some x ∧ pos ≤ x := by
  obtain ⟨i, _, hf⟩ := mem_filterIdx.mp h
  simp only [Bool.and_eq_true] at hf
  rcases ht : a.time with x | _
  · refine ⟨x, rfl, ?_⟩
    have := hf.1
    rw [ht] at this
    simpa [timeGE] using this
  · have := hf.1
    rw [ht] at this
    simp [timeGE] at this

lemma nextPausesF_time {e : Entry} {pIdx : Option Nat} {pos : ℤ} {q : Pause}
    (h : q ∈ nextPausesF e pIdx pos) : ∃ x, evNum q.time = some x ∧ pos ≤ x := by
  obtain ⟨i, _, hf⟩ := mem_filterIdx.mp h
  simp only [Bool.and_eq_true] at hf
  rcases ht : q.time with x | _
  · refine ⟨x, rfl, ?_⟩
    have := hf.1
    rw [ht] at this
    simpa [timeGE] using this
  · have := hf.1
    rw [ht] at this
    simp [timeGE] at this

/-- The computed wake time never lies before the current position. -/
lemma nextWake_ge {e : Entry} {aIdx pIdx : Option Nat} {pos m : ℤ}
    (h : nextWakeTime e aIdx pIdx pos = some m) : pos ≤ m := by
  unfold nextWakeTime at h
  rcases hha : (nextActionsF e aIdx pos).head? with _ | a <;>
    rcases hhp : (nextPausesF e pIdx pos).head? with _ | q <;>
      rw [hha, hhp] at h <;> simp only [optMin, Option.bind] at h
  · cases h
  · obtain ⟨x, hx, hpx⟩ := nextPausesF_time (List.mem_of_mem_head? hhp)
    rw [hx] at h
    simp at h
    omega
  · obtain ⟨x, hx, hpx⟩ := nextActionsF_time (List.mem_of_mem_head? hha)
    rw [hx] at h
    simp at h
    omega
  · obtain ⟨x, hx, hpx⟩ := nextActionsF_time (List.mem_of_mem_head? hha)
    obtain ⟨y, hy, hpy⟩ := nextPausesF_time (List.mem_of_mem_head? hhp)
    rw [hx, hy] at h
    simp only [Option.some.injEq] at h
    rw [← h]
    exact le_min hpx hpy

/-- If the wake time equals the position, something is due exactly at
the position. -/
lemma nextWake_eq_pos_due {e : Entry} {ca cp : Nat} {pos : ℤ}
    (h : nextWakeTime e (some ca) (some cp) pos = some pos) :
    dueActions e (some ca) (.num pos) ≠ [] ∨ duePauses e (some cp) (.num pos) ≠ [] := by
  unfold nextWakeTime at h
  have keyA : ∀ a, (nextActionsF e (some ca) pos).head? = some a →
      evNum a.time = some pos → dueActions e (some ca) (.num pos) ≠ [] := by
    intro a hha hev
    have hmem := List.mem_of_mem_head? hha
    obtain ⟨i, hget, hf⟩ := mem_filterIdx.mp hmem
    simp only [Bool.and_eq_true] at hf
    have htime : a.time = .num pos := by
      rcases ht : a.time with x | _
      · rw [ht] at hev
        simp only [evNum, Option.some.injEq] at hev
        rw [hev]
      · rw [ht] at hev
        cases hev
    intro hemp
    have : a ∈ dueActions e (some ca) (.num pos) :=
      mem_filterIdx.mpr ⟨i, hget, by simp [htime, hf.2]⟩
    rw [hemp] at this
    cases this
  have keyP : ∀ q, (nextPausesF e (some cp) pos).head? = some q →
      evNum q.time = some pos → duePauses e (some cp) (.num pos) ≠ [] := by
    intro q hhp hev
    have hmem := List.mem_of_mem_head? hhp
    obtain ⟨i, hget, hf⟩ := mem_filterIdx.mp hmem
    simp only [Bool.and_eq_true] at hf
    have htime : q.time = .num pos := by
      rcases ht : q.time with x | _
      · rw [ht] at hev
        simp only [evNum, Option.some.injEq] at hev
        rw [hev]
      · rw [ht] at hev
        cases hev
    intro hemp
    have : q ∈ duePauses e (some cp) (.num pos) :=
      mem_filterIdx.mpr ⟨i, hget, by simp [htime, hf.2]⟩
    rw [hemp] at this
    cases this
  rcases hha : (nextActionsF e (some ca) pos).head? with _ | a <;>
    rcases hhp : (nextPausesF e (some cp) pos).head? with _ | q <;>
      rw [hha, hhp] at h <;> simp only [optMin, Option.bind] at h
  · cases h
  · obtain ⟨y, hy, hpy⟩ := nextPausesF_time (List.mem_of_mem_head? hhp)
    rw [hy] at h
    simp only [Option.some.injEq] at h
    exact Or.inr (keyP q hhp (by rw [hy, h]))
  · obtain ⟨x, hx, hpx⟩ := nextActionsF_time (List.mem_of_mem_head? hha)
    rw [hx] at h
    simp only [Option.some.injEq] at h
    exact Or.inl (keyA a hha (by rw [hx, h]))
  · obtain ⟨x, hx, hpx⟩ := nextActionsF_time (List.mem_of_mem_head? hha)
    obtain ⟨y, hy, hpy⟩ := nextPausesF_time (List.mem_of_mem_head? hhp)
    rw [hx, hy] at h
    simp only [Option.some.injEq] at h
    rcases le_total x y with hxy | hxy
    · rw [min_eq_left hxy] at h
      exact Or.inl (keyA a hha (by rw [hx, h]))
    · rw [min_eq_right hxy] at h
      exact Or.inr (keyP q hhp (by rw [hy, h]))

/-- After the due batch fires and the cursor is bumped, nothing at the
same time is due any more. -/
lemma dueActions_bump_empty (e : Entry) (ca : Nat) (t : EvTime) :
    dueActions e (some (bumpCursor ca (dueActIdxs e (some ca) t))) t = [] := by
  by_contra h
  obtain ⟨a, ha⟩ := List.exists_mem_of_ne_nil _ h
  obtain ⟨i, hget, hf⟩ := mem_filterIdx.mp ha
  simp only [Bool.and_eq_true, beq_iff_eq] at hf
  have hca2 : bumpCursor ca (dueActIdxs e (some ca) t) ≤ i := by
    simpa [cursorLE] using hf.2
  have hca : ca ≤ i := le_trans (dueActIdxs_bnd e ca t).2 hca2
  have hidue : i ∈ dueActIdxs e (some ca) t := by
    show i ∈ (filterIdxP _ e.actions).map (·.1)
    exact List.mem_map.mpr ⟨(i, a),
      mem_filterIdxP.mpr ⟨hget, by simp [hf.1, cursorLE, hca]⟩, rfl⟩
  have := ((dueActIdxs_bnd e ca t).1.2 i hidue).2
  omega

lemma duePauses_nil_iff (e : Entry) (c : Option Nat) (t : EvTime) :
    duePauses e c t = [] ↔ duePauseIdxs e c t = [] := by
  unfold duePauses duePauseIdxs filterIdx
  constructor <;> intro h
  · rw [List.map_eq_nil_iff] at h ⊢
    exact h
  · rw [List.map_eq_nil_iff] at h ⊢
    exact h

/-- A position update that finds nothing due right now emits no
events (it only cancels/arms the timer). -/
lemma update_no_fire (fuel : Nat) (p : PL) (slot : Slot) (k : Nat) (e : Entry)
    (ca2 cp2 : Nat) (hcur : p.current = some slot) (hsi : slot.index = some k)
    (hsa : slot.actionIndex = some ca2) (hsp : slot.pauseIndex = some cp2)
    (hent : p.list.get? k = some e)
    (hne : nextWakeTime e (some ca2) (some cp2) slot.videoTime ≠ some slot.videoTime) :
    (run fuel p Call.update).2 = [] := by
  cases fuel with
  | zero => rfl
  | succ n =>
    simp only [run, hcur, hsi, hent, hsa, hsp]
    rcases hw : nextWakeTime e (some ca2) (some cp2) slot.videoTime with _ | m
    · simp only [hw]
    · simp only [hw]
      have hm : ¬ m = slot.videoTime := fun hh => hne (by rw [hw, hh])
      rw [if_neg hm]

/-- `next()` fires none of the current clip's events: the `ended`
notification is emitted and the successor clip starts, but no
`action`/`pauseStart` tagged with this clip can occur. -/
lemma next_from_clip (k : Nat) (fuel : Nat) (p : PL) (slot : Slot)
    (hcur : p.current = some slot)
    (hpre : ∀ s ∈ p.preloadList, s.index ≠ some k)
    (hpi : k < p.preloadIndex) (hreq : p.requestedCurrentTime = none) :
    NoK k (run fuel p Call.next).2 := by
  cases fuel with
  | zero => exact NoK_nil
  | succ fuel =>
    simp only [run, hcur]
    have hdmid : DeadS k ({ { p with currentTimeout := none } with current := none, preloadList := p.preloadList ++ [{ slot with index := none }] } : PL) := by
      refine ⟨by simp, ?_, hpi, hreq⟩
      intro s hx
      rcases List.mem_append.mp hx with hx2 | hx2
      · exact hpre s hx2
      · simp at hx2; rw [hx2]; simp
    have hstart := run_dead k fuel _ Call.start (preloadF_dead hdmid).1 trivial
    split
    next slot3 hc3 =>
      split
      next k3 hk3 =>
        split
        · have hplay := run_dead k fuel _ Call.play hstart.1 trivial
          exact (NoK_ended.append hstart.2).append hplay.2
        · exact (NoK_ended.append hstart.2).append NoK_nil
      next hk3 =>
        exact (NoK_ended.append hstart.2).append NoK_nil
    next hc3 =>
      exact (NoK_ended.append hstart.2).append NoK_nil

/-- The executor invoked at `tE` fires exactly the due batch: all due
actions (in list order) and the first due pause, and nothing else —
in the numeric case the trailing `update` finds nothing left at the
same position, and in the `'end'` case the subsequent clip change
can fire nothing further for this clip. -/
lemma exec_fires_exactly (k : Nat) (e : Entry) (ca cp : Nat) (p : PL)
    (fuel : Nat) (slot : Slot) (tE : EvTime)
    (hA : e.actions.Nodup) (hP : e.pauses.Nodup)
    (hcur : p.current = some slot) (hsi : slot.index = some k)
    (hsa : slot.actionIndex = some ca) (hsp : slot.pauseIndex = some cp)
    (hent : p.list.get? k = some e) (hap : p.activePause = none)
    (hpre : ∀ s ∈ p.preloadList, s.index ≠ some k)
    (hpi : k < p.preloadIndex) (hreq : p.requestedCurrentTime = none)
    (hnum : ∀ x, tE = .num x → slot.videoTime = x) :
    actIdxsOf k (run (fuel + 1) p (Call.execE e tE)).2 = dueActIdxs e (some ca) tE ∧
    pstIdxsOf k (run (fuel + 1) p (Call.execE e tE)).2 =
      (duePauseIdxs e (some cp) tE).take 1 := by
  simp only [run, hap, hcur, hsi, hsa, hsp]
  rw [fireActions_due e hA (some k) ca tE
    ({ p with actionTime := tE, current := some slot, activePause := none } : PL) slot rfl hsa]
  rcases hdps : duePauses e (some cp) tE with _ | ⟨pz, rest⟩
  · simp only [hdps]
    have hpidx : duePauseIdxs e (some cp) tE = [] := (duePauses_nil_iff e _ tE).mp hdps
    by_cases ht : tE = EvTime.endS
    · subst ht
      rw [if_pos rfl]
      have hnx := next_from_clip k fuel
        ({ p with actionTime := EvTime.endS, current := some { slot with actionIndex := some (bumpCursor ca (dueActIdxs e (some ca) EvTime.endS)) }, activePause := none } : PL)
        { slot with actionIndex := some (bumpCursor ca (dueActIdxs e (some ca) EvTime.endS)) }
        rfl hpre hpi hreq
      constructor
      · rw [actIdxsOf_append, actIdxsOf_map_self, hnx.1, List.append_nil]
      · rw [pstIdxsOf_append, pstIdxsOf_map_act, List.nil_append, hnx.2, hpidx]
        rfl
    · rw [if_neg ht]
      rcases tE with x | _
      · have hvx : slot.videoTime = x := hnum x rfl
        have hupd : (run fuel
            ({ p with actionTime := EvTime.num x, current := some { slot with actionIndex := some (bumpCursor ca (dueActIdxs e (some ca) (EvTime.num x))) }, activePause := none } : PL)
            Call.update).2 = [] := by
          refine update_no_fire fuel _
            { slot with actionIndex := some (bumpCursor ca (dueActIdxs e (some ca) (EvTime.num x))) }
            k e _ cp rfl hsi rfl hsp hent ?_
          intro hcon
          have hvx2 : ({ slot with actionIndex := some (bumpCursor ca (dueActIdxs e (some ca) (EvTime.num x))) } : Slot).videoTime = x := hvx
          rw [hvx2] at hcon
          rcases nextWake_eq_pos_due hcon with hbad | hbad
          · exact hbad (dueActions_bump_empty e ca (EvTime.num x))
          · exact hbad hdps
        constructor
        · rw [actIdxsOf_append, actIdxsOf_append, actIdxsOf_map_self, hupd, actIdxsOf_nil]
          have hmid : actIdxsOf k [Ev.playCmd] = [] := rfl
          rw [hmid, List.append_nil, List.append_nil]
        · rw [pstIdxsOf_append, pstIdxsOf_append, pstIdxsOf_map_act, hupd, pstIdxsOf_nil]
          have hmid : pstIdxsOf k [Ev.playCmd] = [] := rfl
          rw [hmid, hpidx]
          rfl
      · exact absurd rfl ht
  · simp only [hdps]
    obtain ⟨i1, irest, hpidx, hIdxOf, hi1⟩ := duePause_head e hP hdps
    rw [pauseStartF_eq e pz none
      ({ p with actionTime := tE, current := some { slot with actionIndex := some (bumpCursor ca (dueActIdxs e (some ca) tE)) }, activePause := none } : PL)
      ({ slot with actionIndex := some (bumpCursor ca (dueActIdxs e (some ca) tE)) })
      rfl, hIdxOf]
    constructor
    · rw [actIdxsOf_append, actIdxsOf_map_self]
      have hmid : actIdxsOf k [Ev.pauseCmd,
          Ev.pauseStartE ({ slot with actionIndex := some (bumpCursor ca (dueActIdxs e (some ca) tE)) } : Slot).index i1] = [] :=
        actIdxsOf_pauseStart k i1 _
      rw [hmid, List.append_nil]
    · rw [pstIdxsOf_append, pstIdxsOf_map_act, List.nil_append]
      have htag : ({ slot with actionIndex := some (bumpCursor ca (dueActIdxs e (some ca) tE)) } : Slot).index = some k := hsi
      rw [show pstIdxsOf k [Ev.pauseCmd,
            Ev.pauseStartE ({ slot with actionIndex := some (bumpCursor ca (dueActIdxs e (some ca) tE)) } : Slot).index i1] =
          if ({ slot with actionIndex := some (bumpCursor ca (dueActIdxs e (some ca) tE)) } : Slot).index = some k then [i1] else []
        from pstIdxsOf_pauseStart k i1 _, htag, if_pos rfl, hpidx]
      rfl

/-- **C2** (amended) — Due-event computation as implemented: the event
executor invoked at a numeric time `t` (current position `t`) fires
exactly the actions whose `time` **equals** `t` past the action
cursor, in original list order, and enters exactly the first pause
whose `time` equals `t` past the pause cursor — not all events with
`time ≤ position`.  An action carrying the `'end'` sentinel is never
in a numeric due batch; the `'end'` batch fires only on the explicit
end-of-clip signal, where the same exactness holds. -/
theorem c2_due_events_amended (k : Nat) (e : Entry) (ca cp : Nat) (p : PL)
    (fuel : Nat) (slot : Slot) (t : ℤ)
    (hA : e.actions.Nodup) (hP : e.pauses.Nodup)
    (hcur : p.current = some slot) (hsi : slot.index = some k)
    (hsa : slot.actionIndex = some ca) (hsp : slot.pauseIndex = some cp)
    (hent : p.list.get? k = some e) (hap : p.activePause = none)
    (hpre : ∀ s ∈ p.preloadList, s.index ≠ some k)
    (hpi : k < p.preloadIndex) (hreq : p.requestedCurrentTime = none)
    (hvt : slot.videoTime = t) :
    (actIdxsOf k (run (fuel + 1) p (Call.execE e (.num t))).2 =
        dueActIdxs e (some ca) (.num t) ∧
     pstIdxsOf k (run (fuel + 1) p (Call.execE e (.num t))).2 =
        (duePauseIdxs e (some cp) (.num t)).take 1) ∧
    (∀ i a, e.actions.get? i = some a → a.time = .endS →
        i ∉ dueActIdxs e (some ca) (.num t)) ∧
    (actIdxsOf k (run (fuel + 1) p (Call.execE e .endS)).2 =
        dueActIdxs e (some ca) .endS ∧
     pstIdxsOf k (run (fuel + 1) p (Call.execE e .endS)).2 =
        (duePauseIdxs e (some cp) .endS).take 1) ∧
    (actIdxsOf k (run (fuel + 2) p Call.update).2 =
        (if nextWakeTime e (some ca) (some cp) t = some t
         then dueActIdxs e (some ca) (.num t) else []) ∧
     pstIdxsOf k (run (fuel + 2) p Call.update).2 =
        (if nextWakeTime e (some ca) (some cp) t = some t
         then (duePauseIdxs e (some cp) (.num t)).take 1 else [])) := by
  refine ⟨exec_fires_exactly k e ca cp p fuel slot (.num t) hA hP hcur hsi hsa hsp hent
      hap hpre hpi hreq (by intro x hx; injection hx with hhx; rw [hvt, hhx]), ?_,
    exec_fires_exactly k e ca cp p fuel slot .endS hA hP hcur hsi hsa hsp hent
      hap hpre hpi hreq (by intro x hx; cases hx), ?_⟩
  · intro i a hget hts hin
    unfold dueActIdxs at hin
    obtain ⟨x, hx, hfst⟩ := List.mem_map.mp hin
    obtain ⟨hget2, hf⟩ := mem_filterIdxP.mp hx
    simp only [Bool.and_eq_true, beq_iff_eq] at hf
    have hxi : x.1 = i := hfst
    rw [hxi, hget] at hget2
    injection hget2 with hae
    have hcontra : EvTime.num t = EvTime.endS := by
      rw [← hf.1, ← hae]
      exact hts
    exact EvTime.noConfusion hcontra
  · rcases hw : nextWakeTime e (some ca) (some cp) t with _ | m
    · have hrun : run (fuel + 2) p Call.update = ({ p with currentTimeout := none }, []) := by
        simp only [run, hcur, hsi, hent, hsa, hsp, hvt, hw]
      rw [hrun]
      simp [actIdxsOf_nil, pstIdxsOf_nil]
    · by_cases hm : m = t
      · subst hm
        have hsync : run (fuel + 2) p Call.update =
            run (fuel + 1) { p with currentTimeout := none } (Call.execE e (.num m)) := by
          simp only [run, hcur, hsi, hent, hsa, hsp, hvt, hw]
          simp
        have hex := exec_fires_exactly k e ca cp { p with currentTimeout := none } fuel
          slot (.num m) hA hP hcur hsi hsa hsp hent hap hpre hpi hreq
          (by intro x hx; injection hx with hhx; rw [hvt, hhx])
        constructor
        · rw [hsync, if_pos rfl]
          exact hex.1
        · rw [hsync, if_pos rfl]
          exact hex.2
      · have h0 : (run (fuel + 2) p Call.update).2 = [] := by
          refine update_no_fire (fuel + 2) p slot k e ca cp hcur hsi hsa hsp hent ?_
          rw [hvt, hw]
          intro h
          injection h with h2
          exact hm h2
        have hcond : ¬ ((some m : Option ℤ) = some t) := by
          intro h
          injection h with h2
          exact hm h2
        rw [h0, if_neg hcond, if_neg hcond]
        exact ⟨rfl, rfl⟩

/-- A clip with a numeric action, an end-sentinel action, and one
pause coincident with the numeric action. -/
def c2we : Entry where
  videoDuration := some 10
  actions := [{ time := .num 2 }, { time := .endS }]
  pauses := [{ time := .num 2, duration := 1 }]

/-- Playing `c2we` at position 2. -/
def c2wp : PL where
  list := [c2we]
  preloadIndex := 3
  preloadList := [{}, {}]
  current := some { index := some 0, videoTime := 2, actionIndex := some 0, pauseIndex := some 0 }

theorem c2_due_events_amended_witness :
    (actIdxsOf 0 (run 11 c2wp (Call.execE c2we (.num 2))).2 =
        dueActIdxs c2we (some 0) (.num 2) ∧
     pstIdxsOf 0 (run 11 c2wp (Call.execE c2we (.num 2))).2 =
        (duePauseIdxs c2we (some 0) (.num 2)).take 1) ∧
    (∀ i a, c2we.actions.get? i = some a → a.time = .endS →
        i ∉ dueActIdxs c2we (some 0) (.num 2)) ∧
    (actIdxsOf 0 (run 11 c2wp (Call.execE c2we .endS)).2 =
        dueActIdxs c2we (some 0) .endS ∧
     pstIdxsOf 0 (run 11 c2wp (Call.execE c2we .endS)).2 =
        (duePauseIdxs c2we (some 0) .endS).take 1) ∧
    (actIdxsOf 0 (run 12 c2wp Call.update).2 =
        (if nextWakeTime c2we (some 0) (some 0) 2 = some 2
         then dueActIdxs c2we (some 0) (.num 2) else []) ∧
     pstIdxsOf 0 (run 12 c2wp Call.update).2 =
        (if nextWakeTime c2we (some 0) (some 0) 2 = some 2
         then (duePauseIdxs c2we (some 0) (.num 2)).take 1 else [])) :=
  c2_due_events_amended 0 c2we 0 0 c2wp 10
    { index := some 0, videoTime := 2, actionIndex := some 0, pauseIndex := some 0 } 2
    (by decide) (by decide) rfl rfl rfl rfl rfl rfl (by decide) (by decide) rfl rfl

/-- The wake time as claim C3 words it: the minimum of the first
not-yet-done action time and pause time past the cursors, with no
restriction to times at or after the position. -/
def specNextWakeTime (e : Entry) (aIdx pIdx : Option Nat) : Option ℤ :=
  optMin ((filterIdx (fun _ i => cursorLE aIdx i) e.actions).head?.bind (fun a => evNum a.time))
         ((filterIdx (fun _ i => cursorLE pIdx i) e.pauses).head?.bind (fun q => evNum q.time))

/-- A clip with one unfired action at time 3 (C3 scenario). -/
def c3e : Entry where
  videoDuration := some 10
  actions := [{ time := .num 3 }]

/-- Playing `c3e` at position 5. -/
def c3p : PL where
  list := [c3e]
  preloadIndex := 3
  current := some { index := some 0, videoTime := 5, actionIndex := some 0, pauseIndex := some 0 }

/-- **C3** (counterexample) — With the cursor at 0 and an undone action
at time 3 but position 5, the claim's wake time is `some 3` and in
particular not `none` although the lists are not exhausted, yet the
implementation computes no wake time at all: no timer is armed and
nothing executes, because the scan keeps only events with
`time >= position`. -/
theorem c3_next_wake_counterexample :
    specNextWakeTime c3e (some 0) (some 0) = some 3 ∧
    nextWakeTime c3e (some 0) (some 0) 5 = none ∧
    run 10 c3p Call.update = ({ c3p with currentTimeout := none }, []) := by
  decide

/-- **C3** (amended) — Next wake-up computation as implemented: the
wake time is the minimum of the first undone action time and first
undone pause time **restricted to times at or after the current
position** (`'end'` never qualifying); it is `none` exactly when no
such event remains (even if earlier-timed events are still undone).
When it equals the position the due events execute synchronously;
otherwise the timer is armed with the captured entry for a strictly
positive delay `wake − position`.  In every branch the previously
outstanding timer is discarded first: the resulting `currentTimeout`
never depends on the one in force before the call. -/
theorem c3_next_wake_amended (k : Nat) (e : Entry) (ca cp : Nat) (p : PL)
    (fuel : Nat) (slot : Slot)
    (hcur : p.current = some slot) (hsi : slot.index = some k)
    (hsa : slot.actionIndex = some ca) (hsp : slot.pauseIndex = some cp)
    (hent : p.list.get? k = some e) :
    (nextWakeTime e (some ca) (some cp) slot.videoTime = none ↔
      nextActionsF e (some ca) slot.videoTime = [] ∧
      nextPausesF e (some cp) slot.videoTime = []) ∧
    (nextWakeTime e (some ca) (some cp) slot.videoTime = none →
      run (fuel + 1) p Call.update = ({ p with currentTimeout := none }, [])) ∧
    (∀ m, nextWakeTime e (some ca) (some cp) slot.videoTime = some m →
      m ≠ slot.videoTime →
      run (fuel + 1) p Call.update =
        ({ p with currentTimeout := some ⟨e, m, m - slot.videoTime⟩ }, []) ∧
      0 < m - slot.videoTime) ∧
    (∀ m, nextWakeTime e (some ca) (some cp) slot.videoTime = some m →
      m = slot.videoTime →
      run (fuel + 1) p Call.update =
        run fuel { p with currentTimeout := none } (Call.execE e (.num m))) := by
  refine ⟨?_, ?_, ?_, ?_⟩
  · constructor
    · intro h
      unfold nextWakeTime at h
      rcases hha : (nextActionsF e (some ca) slot.videoTime).head? with _ | a <;>
        rcases hhp : (nextPausesF e (some cp) slot.videoTime).head? with _ | q <;>
          rw [hha, hhp] at h <;> simp only [optMin, Option.bind] at h
      · exact ⟨List.head?_eq_none_iff.mp hha, List.head?_eq_none_iff.mp hhp⟩
      · obtain ⟨y, hy, _⟩ := nextPausesF_time (List.mem_of_mem_head? hhp)
        rw [hy] at h
        cases h
      · obtain ⟨x, hx, _⟩ := nextActionsF_time (List.mem_of_mem_head? hha)
        rw [hx] at h
        cases h
      · obtain ⟨x, hx, _⟩ := nextActionsF_time (List.mem_of_mem_head? hha)
        obtain ⟨y, hy, _⟩ := nextPausesF_time (List.mem_of_mem_head? hhp)
        rw [hx, hy] at h
        cases h
    · intro h
      unfold nextWakeTime
      rw [h.1, h.2]
      rfl
  · intro hw
    simp only [run, hcur, hsi, hent, hsa, hsp, hw]
  · intro m hw hm
    constructor
    · simp only [run, hcur, hsi, hent, hsa, hsp, hw]
      rw [if_neg hm]
    · have := nextWake_ge hw
      omega
  · intro m hw hm
    simp only [run, hcur, hsi, hent, hsa, hsp, hw]
    rw [if_pos hm]

/-- A clip with events on both lists for the C3 witness: action at 7,
pause at 4 — at position 2 the wake time is 4 with delay 2. -/
def c3we : Entry where
  videoDuration := some 10
  actions := [{ time := .num 7 }]
  pauses := [{ time := .num 4, duration := 1 }]

/-- Playing `c3we` at position 2 with a stale timer outstanding. -/
def c3wp : PL where
  list := [c3we]
  preloadIndex := 3
  current := some { index := some 0, videoTime := 2, actionIndex := some 0, pauseIndex := some 0 }
  currentTimeout := some ⟨c3we, 7, 5⟩

theorem c3_next_wake_amended_witness :
    (nextWakeTime c3we (some 0) (some 0) 2 = none ↔
      nextActionsF c3we (some 0) 2 = [] ∧ nextPausesF c3we (some 0) 2 = []) ∧
    (nextWakeTime c3we (some 0) (some 0) 2 = none →
      run 11 c3wp Call.update = ({ c3wp with currentTimeout := none }, [])) ∧
    (∀ m, nextWakeTime c3we (some 0) (some 0) 2 = some m → m ≠ 2 →
      run 11 c3wp Call.update =
        ({ c3wp with currentTimeout := some ⟨c3we, m, m - 2⟩ }, []) ∧ 0 < m - 2) ∧
    (∀ m, nextWakeTime c3we (some 0) (some 0) 2 = some m → m = 2 →
      run 11 c3wp Call.update =
        run 10 { c3wp with currentTimeout := none } (Call.execE c3we (.num m))) :=
  c3_next_wake_amended 0 c3we 0 0 c3wp 10
    { index := some 0, videoTime := 2, actionIndex := some 0, pauseIndex := some 0 }
    rfl rfl rfl rfl rfl

theorem c3_next_wake_amended_witness_value :
    nextWakeTime c3we (some 0) (some 0) 2 = some 4 ∧
    (run 11 c3wp Call.update).1.currentTimeout = some ⟨c3we, 4, 2⟩ := by
  decide

/-- A pause used in the C9 exhaustion scenarios. -/
def c9pz : Pause where
  time := .num 2
  duration := 3

/-- First clip of the C9 counterexample playlist. -/
def c9ce : Entry where
  videoDuration := some 6
  pauses := [c9pz]

/-- Mid-pause in clip 0 of a two-clip playlist, about to jump way past
the end. -/
def c9cp : PL where
  list := [c9ce, { videoDuration := some 4 }]
  preloadIndex := 2
  preloadList := [{ index := some 1 }]
  current := some { index := some 0, videoTime := 2, actionIndex := some 0, pauseIndex := some 1 }
  activePause := some ⟨c9ce, c9pz, 3⟩

lemma filterIdx_nil (f : α → Nat → Bool) : filterIdx f ([] : List α) = [] := rfl

/-- A slot that already carries no index is unchanged by unclaiming. -/
lemma slot_unclaim_eta (s : Slot) (h : s.index = none) :
    { s with index := none } = s := by
  cases s
  cases h
  rfl

/-- When no preloader holds the target index, the `set index` shift
rotates through the whole list, unclaiming every slot. -/
lemma rotScan_none (i : Nat) (l : List Slot)
    (h : ∀ s ∈ l, s.index ≠ some i) :
    rotScan i l = ([], l.map (fun s => { s with index := none })) := by
  induction l with
  | nil => rfl
  | cons s t ih =>
    have hs := h s (List.mem_cons_self ..)
    rw [rotScan, if_neg hs, ih (fun x hx => h x (List.mem_cons_of_mem _ hx))]
    rfl

/-- `preload` past the end of the playlist: every unclaimed slot stays
unclaimed and the playlist itself is untouched; only `preloadIndex`
keeps counting. -/
lemma preloadSlots_overflow (len : Nat) (l : List Slot) (pIdx : Nat)
    (lst : List Entry) (hn : ∀ s ∈ l, s.index = none) (hp : len ≤ pIdx) :
    preloadSlots len l pIdx lst = (l, pIdx + l.length, lst) := by
  induction l generalizing pIdx with
  | nil => rfl
  | cons s t ih =>
    have hs := hn s (List.mem_cons_self ..)
    have hlt : ¬ pIdx < len := by omega
    rw [preloadSlots, hs]
    simp only [if_neg hlt]
    rw [ih (pIdx + 1) (fun x hx => hn x (List.mem_cons_of_mem _ hx)) (by omega)]
    simp only [Prod.mk.injEq, List.length_cons]
    exact ⟨by rw [slot_unclaim_eta s hs], by omega, trivial⟩

/-- `start` when the next preloader never claimed a playlist index:
it becomes current and `endedAll` is announced. -/
lemma start_none_head (fuel : Nat) (p : PL) (s : Slot) (rest : List Slot)
    (hpl : p.preloadList = s :: rest) (hs : s.index = none) :
    run (fuel + 1) p Call.start =
      ({ p with current := some s, preloadList := rest }, [Ev.endedAll]) := by
  simp only [run, hpl, hs]

/-- `next` on an exhausted playlist (every preloader unclaimed and the
preload counter past the end): the clip ends, `endedAll` fires exactly
once, the event timer is cleared — and `activePause` is left alone. -/
lemma next_exhausted (fuel : Nat) (p : PL) (slot : Slot)
    (hcur : p.current = some slot)
    (hpl : ∀ s ∈ p.preloadList, s.index = none)
    (hpi : p.list.length ≤ p.preloadIndex) :
    (run (fuel + 2) p Call.next).2 = [Ev.ended, Ev.endedAll] ∧
    (run (fuel + 2) p Call.next).1.currentTimeout = none ∧
    (run (fuel + 2) p Call.next).1.activePause = p.activePause := by
  have hall : ∀ s ∈ p.preloadList ++ [{ slot with index := none }],
      s.index = none := by
    intro s hs
    rcases List.mem_append.mp hs with h | h
    · exact hpl s h
    · rw [List.mem_singleton.mp h]
  obtain ⟨s0, t0, hsplit⟩ :
      ∃ s0 t0, p.preloadList ++ [{ slot with index := none }] = s0 :: t0 := by
    rcases p.preloadList with _ | ⟨a, b⟩
    · exact ⟨_, _, rfl⟩
    · exact ⟨_, _, rfl⟩
  have hs0 : s0.index = none := hall s0 (hsplit ▸ List.mem_cons_self ..)
  have hover := preloadSlots_overflow p.list.length
    (p.preloadList ++ [{ slot with index := none }]) p.preloadIndex p.list
    hall hpi
  rw [hsplit] at hover
  simp only [run, hcur, preloadF, hsplit, hover, hs0]
  simp

/-- **C9** (counterexample) — A jump beyond the playlist bounds while a
pause is active does reach `endedAll` exactly once, but the "no pending
timers remain" part fails: the active pause's `_pauseEnd` timeout is
never cancelled, survives the jump, and when it fires it emits a
`pauseEnd` notification and a `play()` command on the supposedly
all-ended player. -/
theorem c9_exhaustion_counterexample :
    (run 10 c9cp (Call.setIndex 5)).2 = [Ev.ended, Ev.endedAll] ∧
    (run 10 c9cp (Call.setIndex 5)).1.activePause.isSome = true ∧
    (run 10 (run 10 c9cp (Call.setIndex 5)).1 Call.pauseTimer).2 =
      [Ev.pauseEndE none 0, Ev.playCmd] := by
  decide

/-- **C9** (amended) — Playlist exhaustion is indeed soft and
`endedAll` fires exactly once with the event timer cleared, both for a
jump beyond the bounds (first clause) and for natural advance past the
last clip (second clause); but the active-pause state is merely carried
over unchanged (`activePause` preserved), not cancelled, so "no pending
timers remain" only holds when no pause was active at the time. -/
theorem c9_exhaustion_amended (fuel i k0 kq : Nat) (p q : PL)
    (slot sq : Slot) (e : Entry)
    (hlen : p.list.length ≤ i)
    (hcur : p.current = some slot) (hsi : slot.index = some k0) (hki : k0 ≠ i)
    (hpl : ∀ s ∈ p.preloadList, s.index ≠ some i)
    (hq : q.current = some sq) (hqi : sq.index = some kq)
    (hqe : q.list.get? kq = some e)
    (hqa : e.actions = []) (hqp : e.pauses = [])
    (hqap : q.activePause = none)
    (hqpl : ∀ s ∈ q.preloadList, s.index = none)
    (hqpi : q.list.length ≤ q.preloadIndex) :
    ((run (fuel + 3) p (Call.setIndex i)).2 = [Ev.ended, Ev.endedAll] ∧
     (run (fuel + 3) p (Call.setIndex i)).1.currentTimeout = none ∧
     (run (fuel + 3) p (Call.setIndex i)).1.activePause = p.activePause) ∧
    ((run (fuel + 4) q Call.endSig).2 = [Ev.ended, Ev.endedAll] ∧
     (run (fuel + 4) q Call.endSig).1.currentTimeout = none ∧
     (run (fuel + 4) q Call.endSig).1.activePause = none) := by
  constructor
  · have hsame : (slot.index == some i) = false := by
      rw [hsi]
      simp [hki]
    have hrot := rotScan_none i p.preloadList hpl
    have hstep : run (fuel + 3) p (Call.setIndex i) =
        run (fuel + 2)
          { p with preloadList := p.preloadList.map (fun s => { s with index := none }),
                   preloadIndex := i } Call.next := by
      simp only [run, hcur, hsame, hrot]
      rfl
    rw [hstep]
    have hnext := next_exhausted fuel
      { p with preloadList := p.preloadList.map (fun s => { s with index := none }),
               preloadIndex := i } slot hcur
      (by intro s hs
          obtain ⟨x, hx, hxdef⟩ := List.mem_map.mp hs
          rw [← hxdef])
      hlen
    exact hnext
  · have hacts : dueActions e sq.actionIndex EvTime.endS = [] := by
      simp only [dueActions, hqa, filterIdx_nil]
    have hps : duePauses e sq.pauseIndex EvTime.endS = [] := by
      simp only [duePauses, hqp, filterIdx_nil]
    have hstep : run (fuel + 4) q Call.endSig =
        run (fuel + 2) { q with actionTime := EvTime.endS } Call.next := by
      have h1 : run (fuel + 4) q Call.endSig =
          run (fuel + 3) q (Call.execE e EvTime.endS) := by
        simp only [run, hq, hqi, Option.some_bind, hqe]
      rw [h1]
      simp only [run, hqap, hq, hacts, hps, fireActions]
      simp
    rw [hstep]
    have hnext := next_exhausted fuel { q with actionTime := EvTime.endS } sq hq
      hqpl hqpi
    exact ⟨hnext.1, hnext.2.1, hnext.2.2.trans hqap⟩

/-- The single clip of the natural-advance C9 scenario. -/
def c9we : Entry where
  videoDuration := some 4

/-- At the end of the last clip, nothing left to preload. -/
def c9wq : PL where
  list := [c9we]
  preloadIndex := 1
  current := some { index := some 0, videoTime := 4, actionIndex := some 0, pauseIndex := some 0 }

theorem c9_exhaustion_amended_witness :
    ((run 10 c9cp (Call.setIndex 5)).2 = [Ev.ended, Ev.endedAll] ∧
     (run 10 c9cp (Call.setIndex 5)).1.currentTimeout = none ∧
     (run 10 c9cp (Call.setIndex 5)).1.activePause = c9cp.activePause) ∧
    ((run 11 c9wq Call.endSig).2 = [Ev.ended, Ev.endedAll] ∧
     (run 11 c9wq Call.endSig).1.currentTimeout = none ∧
     (run 11 c9wq Call.endSig).1.activePause = none) :=
  c9_exhaustion_amended 7 5 0 0 c9cp c9wq
    { index := some 0, videoTime := 2, actionIndex := some 0, pauseIndex := some 1 }
    { index := some 0, videoTime := 4, actionIndex := some 0, pauseIndex := some 0 }
    c9we (by decide) rfl rfl (by decide) (by decide) rfl rfl rfl rfl rfl rfl
    (by decide) (by decide)

/-- Dropping the head of a cursor-filtered indexed list: re-filtering
with the cursor one past the head index yields exactly the tail. -/
lemma filter_cursor_tail {α : Type _} (f : α → Bool) :
    ∀ (E : List (Nat × α)) (c i1 : Nat) (x : α) (PS : List (Nat × α)),
      E.Pairwise (fun a b => a.1 < b.1) →
      E.filter (fun y => f y.2 && cursorLE (some c) y.1) = (i1, x) :: PS →
      E.filter (fun y => f y.2 && cursorLE (some (i1 + 1)) y.1) = PS := by
  intro E
  induction E with
  | nil =>
    intro c i1 x PS _ h
    simp at h
  | cons e0 E2 ih =>
    intro c i1 x PS hpw h
    obtain ⟨hlt, hpw2⟩ := List.pairwise_cons.mp hpw
    rw [List.filter_cons] at h ⊢
    rcases hf0 : (f e0.2 && cursorLE (some c) e0.1) with _ | _
    · rw [hf0] at h
      simp only [Bool.false_eq_true, if_false] at h
      have hmem : (i1, x) ∈ E2 :=
        List.mem_of_mem_filter (h ▸ List.mem_cons_self ..)
      have hE0lt : e0.1 < i1 := hlt (i1, x) hmem
      have hc2 : cursorLE (some (i1 + 1)) e0.1 = false := by
        simp only [cursorLE, decide_eq_false_iff_not]
        omega
      rw [hc2, Bool.and_false]
      simp only [Bool.false_eq_true, if_false]
      exact ih c i1 x PS hpw2 h
    · rw [hf0] at h
      simp only [if_true] at h
      obtain ⟨he0, hPS⟩ := List.cons.injEq .. ▸ h
      have hci : c ≤ i1 := by
        have := (Bool.and_eq_true ..).mp hf0
        rw [he0] at this
        simpa [cursorLE] using this.2
      have hc2 : cursorLE (some (i1 + 1)) e0.1 = false := by
        rw [he0]
        simp only [cursorLE, decide_eq_false_iff_not]
        omega
      rw [hc2, Bool.and_false]
      simp only [Bool.false_eq_true, if_false]
      rw [← hPS]
      apply List.filter_congr
      intro y hy
      have hy1 : i1 < y.1 := by
        have h2 := hlt y hy
        rw [he0] at h2
        exact h2
      have ha : cursorLE (some (i1 + 1)) y.1 = true := by
        simp only [cursorLE, decide_eq_true_eq]
        omega
      have hb : cursorLE (some c) y.1 = true := by
        simp only [cursorLE, decide_eq_true_eq]
        omega
      rw [ha, hb]

/-- Every due pause fires at exactly the requested time. -/
lemma duePauses_time {e : Entry} {c : Option Nat} {t : EvTime} {q : Pause}
    (h : q ∈ duePauses e c t) : q.time = t := by
  obtain ⟨i, _, hf⟩ := mem_filterIdx.mp h
  simp only [Bool.and_eq_true, beq_iff_eq] at hf
  exact hf.1

lemma dueActions_nil_iff (e : Entry) (c : Option Nat) (t : EvTime) :
    dueActions e c t = [] ↔ dueActIdxs e c t = [] := by
  unfold dueActions dueActIdxs filterIdx
  constructor <;> intro h
  · rw [List.map_eq_nil_iff] at h ⊢
    exact h
  · rw [List.map_eq_nil_iff] at h ⊢
    exact h

/-- After entering the first due pause, the pauses still due at that
time are exactly the remaining ones, past the advanced cursor. -/
lemma duePauses_tail (e : Entry) (hP : e.pauses.Nodup) {cp : Nat} {t : EvTime}
    {pz0 : Pause} {R0 : List Pause}
    (h : duePauses e (some cp) t = pz0 :: R0) :
    duePauses e (some (e.pauses.indexOf pz0 + 1)) t = R0 ∧
    duePauseIdxs e (some cp) t =
      e.pauses.indexOf pz0 :: duePauseIdxs e (some (e.pauses.indexOf pz0 + 1)) t := by
  have hdue : duePauses e (some cp) t =
      (filterIdxP (fun q i => q.time == t && cursorLE (some cp) i) e.pauses).map (·.2) := rfl
  rw [hdue] at h
  rcases hL : filterIdxP (fun q i => q.time == t && cursorLE (some cp) i) e.pauses
    with _ | ⟨x, PS⟩
  · rw [hL] at h
    simp at h
  · rw [hL] at h
    simp only [List.map_cons, List.cons.injEq] at h
    obtain ⟨hx2, hPS2⟩ := h
    have hidx : e.pauses.indexOf x.2 = x.1 :=
      indexOf_filterIdxP hP (hL ▸ List.mem_cons_self ..)
    have htail := filter_cursor_tail (fun q : Pause => q.time == t) e.pauses.enum
      cp x.1 x.2 PS (pairwise_fst_enum _) hL
    have htail2 : filterIdxP (fun q i => q.time == t && cursorLE (some (x.1 + 1)) i)
        e.pauses = PS := htail
    rw [← hx2, hidx]
    constructor
    · show (filterIdxP (fun q i => q.time == t && cursorLE (some (x.1 + 1)) i)
          e.pauses).map (·.2) = R0
      rw [htail2, hPS2]
    · show (filterIdxP (fun q i => q.time == t && cursorLE (some cp) i)
          e.pauses).map (·.1) = x.1 ::
        (filterIdxP (fun q i => q.time == t && cursorLE (some (x.1 + 1)) i)
          e.pauses).map (·.1)
      rw [hL, htail2]
      rfl

lemma nextWake_ne_pos_of_no_due {e : Entry} {ca cp : Nat} {pos : ℤ}
    (ha : dueActions e (some ca) (.num pos) = [])
    (hp : duePauses e (some cp) (.num pos) = []) :
    nextWakeTime e (some ca) (some cp) pos ≠ some pos := by
  intro h
  rcases nextWake_eq_pos_due h with h2 | h2
  · exact h2 ha
  · exact h2 hp

/-- A position update that does not execute synchronously only
replaces the pending timer: no other field changes and no event is
emitted. -/
lemma update_state (fuel : Nat) (p : PL) (slot : Slot) (k : Nat) (e : Entry)
    (ca2 cp2 : Nat) (hcur : p.current = some slot) (hsi : slot.index = some k)
    (hsa : slot.actionIndex = some ca2) (hsp : slot.pauseIndex = some cp2)
    (hent : p.list.get? k = some e)
    (hne : nextWakeTime e (some ca2) (some cp2) slot.videoTime ≠ some slot.videoTime) :
    ∃ x, run fuel p Call.update = ({ p with currentTimeout := x }, []) := by
  cases fuel with
  | zero => exact ⟨p.currentTimeout, rfl⟩
  | succ n =>
    simp only [run, hcur, hsi, hent, hsa, hsp]
    rcases hw : nextWakeTime e (some ca2) (some cp2) slot.videoTime with _ | m
    · exact ⟨none, rfl⟩
    · have hm : ¬ m = slot.videoTime := fun h2 => hne (h2 ▸ hw)
      refine ⟨some ⟨e, m, m - slot.videoTime⟩, ?_⟩
      dsimp only
      rw [if_neg hm]

/-- The executor at a numeric time with no due pause: it fires the due
actions in list order, issues `play()`, and hands over to `update`
(which only re-arms the timer). -/
lemma exec_no_due_pause (k : Nat) (e : Entry) (ca cp : Nat) (p : PL)
    (fuel : Nat) (slot : Slot) (t : ℤ)
    (hA : e.actions.Nodup)
    (hcur : p.current = some slot) (hsi : slot.index = some k)
    (hvt : slot.videoTime = t)
    (hsa : slot.actionIndex = some ca) (hsp : slot.pauseIndex = some cp)
    (hent : p.list.get? k = some e) (hap : p.activePause = none)
    (hd : duePauses e (some cp) (.num t) = []) :
    ∃ x, run (fuel + 2) p (Call.execE e (.num t)) =
      ({ p with current := some { slot with actionIndex := some (bumpCursor ca (dueActIdxs e (some ca) (.num t))) }, currentTimeout := x, activePause := none, actionTime := EvTime.num t },
       (dueActIdxs e (some ca) (.num t)).map (Ev.action (some k)) ++ [Ev.playCmd]) := by
  have hfire := fireActions_due e hA slot.index ca (.num t)
    { p with current := some slot, activePause := none, actionTime := EvTime.num t }
    slot rfl hsa
  have hne2 : nextWakeTime e (some (bumpCursor ca (dueActIdxs e (some ca) (.num t)))) (some cp) slot.videoTime ≠ some slot.videoTime := by
    rw [hvt]
    exact nextWake_ne_pos_of_no_due (dueActions_bump_empty e ca (.num t)) hd
  obtain ⟨x, hx⟩ := update_state (fuel + 1) { p with current := some { slot with actionIndex := some (bumpCursor ca (dueActIdxs e (some ca) (.num t))) }, activePause := none, actionTime := EvTime.num t } { slot with actionIndex := some (bumpCursor ca (dueActIdxs e (some ca) (.num t))) } k e (bumpCursor ca (dueActIdxs e (some ca) (.num t))) cp rfl hsi rfl hsp hent hne2
  have hstep : run (fuel + 2) p (Call.execE e (.num t)) =
      ((run (fuel + 1) { p with current := some { slot with actionIndex := some (bumpCursor ca (dueActIdxs e (some ca) (.num t))) }, activePause := none, actionTime := EvTime.num t } Call.update).1,
       (dueActIdxs e (some ca) (.num t)).map (Ev.action slot.index) ++ [Ev.playCmd]
         ++ (run (fuel + 1) { p with current := some { slot with actionIndex := some (bumpCursor ca (dueActIdxs e (some ca) (.num t))) }, activePause := none, actionTime := EvTime.num t } Call.update).2) := by
    simp only [run, hap, hcur, hsa, hsp, hfire, hd]
    rw [if_neg (fun h => EvTime.noConfusion h)]
  refine ⟨x, ?_⟩
  rw [hstep, hx]
  simp [hsi, hap]


/-- The executor when at least one pause is due: the due actions all
fire first, then the first due pause is entered (cursor advanced,
pause command and notification emitted) and the executor stops. -/
lemma exec_due_pause (k : Nat) (e : Entry) (ca cp : Nat) (p : PL)
    (fuel : Nat) (slot : Slot) (t : EvTime) (pz0 : Pause) (R0 : List Pause)
    (hA : e.actions.Nodup)
    (hcur : p.current = some slot) (hsi : slot.index = some k)
    (hsa : slot.actionIndex = some ca) (hsp : slot.pauseIndex = some cp)
    (hap : p.activePause = none)
    (hd : duePauses e (some cp) t = pz0 :: R0) :
    run (fuel + 2) p (Call.execE e t) =
      ({ p with current := some { slot with actionIndex := some (bumpCursor ca (dueActIdxs e (some ca) t)), pauseIndex := some (e.pauses.indexOf pz0 + 1) }, activePause := some ⟨e, pz0, pz0.duration⟩, actionTime := t },
       (dueActIdxs e (some ca) t).map (Ev.action (some k)) ++ [Ev.pauseCmd, Ev.pauseStartE (some k) (e.pauses.indexOf pz0)]) := by
  have hfire := fireActions_due e hA slot.index ca t
    { p with current := some slot, activePause := none, actionTime := t } slot rfl hsa
  have hps := pauseStartF_eq e pz0 none
    { p with current := some (Slot.mk slot.index slot.videoTime (some (bumpCursor ca (dueActIdxs e (some ca) t))) (some cp)), activePause := none, actionTime := t }
    (Slot.mk slot.index slot.videoTime (some (bumpCursor ca (dueActIdxs e (some ca) t))) (some cp)) rfl
  simp only [run, hap, hcur, hsa, hsp, hfire, hd, hps]
  simp [hsi, hsp]

lemma drain_inactive (F iF : Nat) (p : PL) (h : p.activePause = none) :
    drain F iF p = (p, []) := by
  cases F with
  | zero => rfl
  | succ n => simp only [drain, h]

/-- One firing of the active-pause timer, reduced to the re-invocation
of the executor at the pause's own time. -/
lemma pauseTimer_unfold (fuel : Nat) (p : PL) (slot : Slot) (k iprev : Nat)
    (e : Entry) (pz : Pause) (d t : ℤ)
    (hcur : p.current = some slot) (hsi : slot.index = some k)
    (hap : p.activePause = some ⟨e, pz, d⟩)
    (hpzt : pz.time = EvTime.num t) (hidx : e.pauses.indexOf pz = iprev) :
    run (fuel + 4) p Call.pauseTimer =
      ((run (fuel + 2) { p with activePause := none } (Call.execE e (EvTime.num t))).1,
       Ev.pauseEndE (some k) iprev ::
         (run (fuel + 2) { p with activePause := none } (Call.execE e (EvTime.num t))).2) := by
  simp only [run, hap, hcur, hsi, hpzt, hidx, Option.some_bind]

/-- The stacked-pause completion chain: starting from an active pause
at index `iprev` (time `t`) with all due actions already consumed,
repeatedly firing the pause timer emits, in list order, the end of the
current pause followed by the entry of each further pause still due at
`t`, and finally a single `play()` command, leaving no pause active. -/
lemma drain_chain (k : Nat) (e : Entry) (ca2 : Nat) (t : ℤ) (fuel : Nat)
    (hA : e.actions.Nodup) (hP : e.pauses.Nodup) :
    ∀ (R : List Pause) (F : Nat) (iprev : Nat) (p : PL) (slot : Slot)
      (pz : Pause) (d : ℤ),
      R.length < F →
      p.current = some slot → slot.index = some k → slot.videoTime = t →
      slot.actionIndex = some ca2 → slot.pauseIndex = some (iprev + 1) →
      p.list.get? k = some e → p.activePause = some ⟨e, pz, d⟩ →
      pz.time = EvTime.num t → e.pauses.indexOf pz = iprev →
      dueActions e (some ca2) (EvTime.num t) = [] →
      duePauses e (some (iprev + 1)) (EvTime.num t) = R →
      (drain F (fuel + 4) p).2 =
        Ev.pauseEndE (some k) iprev ::
          ((duePauseIdxs e (some (iprev + 1)) (EvTime.num t)).flatMap
             (fun i => [Ev.pauseCmd, Ev.pauseStartE (some k) i,
                        Ev.pauseEndE (some k) i]) ++ [Ev.playCmd]) ∧
      (drain F (fuel + 4) p).1.activePause = none := by
  intro R
  induction R with
  | nil =>
    intro F iprev p slot pz d hF hcur hsi hvt hsa hsp hent hap hpzt hidx hnoact hdue
    rcases F with _ | F2
    · exact absurd hF (by omega)
    have hidx0 : dueActIdxs e (some ca2) (EvTime.num t) = [] :=
      (dueActions_nil_iff e _ _).mp hnoact
    have hpidx0 : duePauseIdxs e (some (iprev + 1)) (EvTime.num t) = [] :=
      (duePauses_nil_iff e _ _).mp hdue
    have hrun := pauseTimer_unfold fuel p slot k iprev e pz d t hcur hsi hap hpzt hidx
    obtain ⟨x, hx⟩ := exec_no_due_pause k e ca2 (iprev + 1)
      { p with activePause := none } fuel slot t hA hcur hsi hvt hsa hsp hent rfl hdue
    constructor
    · simp only [drain, hap, hrun, hx]
      rw [drain_inactive _ _ _ rfl]
      simp [hidx0, hpidx0]
    · simp only [drain, hap, hrun, hx]
      rw [drain_inactive _ _ _ rfl]
  | cons pz1 R1 ih =>
    intro F iprev p slot pz d hF hcur hsi hvt hsa hsp hent hap hpzt hidx hnoact hdue
    rcases F with _ | F2
    · exact absurd hF (by omega)
    have hidx0 : dueActIdxs e (some ca2) (EvTime.num t) = [] :=
      (dueActions_nil_iff e _ _).mp hnoact
    have hrun := pauseTimer_unfold fuel p slot k iprev e pz d t hcur hsi hap hpzt hidx
    have hexec := exec_due_pause k e ca2 (iprev + 1) { p with activePause := none }
      fuel slot (EvTime.num t) pz1 R1 hA hcur hsi hsa hsp rfl hdue
    have hsa3 : some (bumpCursor ca2 (dueActIdxs e (some ca2) (EvTime.num t))) = some ca2 := by
      rw [hidx0]
      rfl
    have hpzt1 : pz1.time = EvTime.num t :=
      duePauses_time (hdue ▸ List.mem_cons_self ..)
    obtain ⟨hdue1, hsplit⟩ := duePauses_tail e hP hdue
    have hih := ih F2 (e.pauses.indexOf pz1)
      { p with current := some { slot with actionIndex := some (bumpCursor ca2 (dueActIdxs e (some ca2) (EvTime.num t))), pauseIndex := some (e.pauses.indexOf pz1 + 1) }, activePause := some ⟨e, pz1, pz1.duration⟩, actionTime := EvTime.num t }
      { slot with actionIndex := some (bumpCursor ca2 (dueActIdxs e (some ca2) (EvTime.num t))), pauseIndex := some (e.pauses.indexOf pz1 + 1) }
      pz1 pz1.duration (by simp at hF; omega) rfl hsi hvt hsa3 rfl hent rfl hpzt1 rfl hnoact hdue1
    constructor
    · simp only [drain, hap, hrun, hexec]
      rw [hih.1, hsplit]
      simp [hidx0]
    · simp only [drain, hap, hrun, hexec]
      exact hih.2

/-- **C4** — Coincident-event ordering: invoking the executor at a
numeric time fires all due actions first, in list order, and then the
due pauses are entered in list order; each normally completed pause
re-invokes the resolver at that same time so the remaining stacked
pauses fire one after another, and only after the last one does the
single `play()` command resume playback. -/
theorem c4_coincident_order (k : Nat) (e : Entry) (ca cp : Nat) (t : ℤ)
    (p : PL) (slot : Slot) (fuel : Nat)
    (hA : e.actions.Nodup) (hP : e.pauses.Nodup)
    (hcur : p.current = some slot) (hsi : slot.index = some k)
    (hvt : slot.videoTime = t)
    (hsa : slot.actionIndex = some ca) (hsp : slot.pauseIndex = some cp)
    (hent : p.list.get? k = some e) (hap : p.activePause = none) :
    (run (fuel + 2) p (Call.execE e (EvTime.num t))).2 ++
      (drain ((duePauses e (some cp) (EvTime.num t)).length + 1) (fuel + 4)
        (run (fuel + 2) p (Call.execE e (EvTime.num t))).1).2 =
    (dueActIdxs e (some ca) (EvTime.num t)).map (Ev.action (some k)) ++
      (duePauseIdxs e (some cp) (EvTime.num t)).flatMap
        (fun i => [Ev.pauseCmd, Ev.pauseStartE (some k) i, Ev.pauseEndE (some k) i]) ++
      [Ev.playCmd] := by
  rcases hd : duePauses e (some cp) (EvTime.num t) with _ | ⟨pz0, R0⟩
  · obtain ⟨x, hx⟩ := exec_no_due_pause k e ca cp p fuel slot t hA hcur hsi hvt hsa hsp
      hent hap hd
    have hpidx0 : duePauseIdxs e (some cp) (EvTime.num t) = [] :=
      (duePauses_nil_iff e _ _).mp hd
    rw [hx, drain_inactive _ _ _ rfl]
    simp [hpidx0]
  · have hexec := exec_due_pause k e ca cp p fuel slot (EvTime.num t) pz0 R0
      hA hcur hsi hsa hsp hap hd
    have hpzt0 : pz0.time = EvTime.num t :=
      duePauses_time (hd ▸ List.mem_cons_self ..)
    obtain ⟨hdue1, hsplit⟩ := duePauses_tail e hP hd
    have hchain := drain_chain k e (bumpCursor ca (dueActIdxs e (some ca) (EvTime.num t)))
      t fuel hA hP R0 (R0.length + 1 + 1) (e.pauses.indexOf pz0)
      { p with current := some { slot with actionIndex := some (bumpCursor ca (dueActIdxs e (some ca) (EvTime.num t))), pauseIndex := some (e.pauses.indexOf pz0 + 1) }, activePause := some ⟨e, pz0, pz0.duration⟩, actionTime := EvTime.num t }
      { slot with actionIndex := some (bumpCursor ca (dueActIdxs e (some ca) (EvTime.num t))), pauseIndex := some (e.pauses.indexOf pz0 + 1) }
      pz0 pz0.duration (by omega) rfl hsi hvt rfl rfl hent rfl hpzt0 rfl
      (dueActions_bump_empty e ca (EvTime.num t)) hdue1
    rw [hexec]
    simp only [List.length_cons]
    rw [hchain.1, hsplit]
    simp

/-- Two actions and two pauses all stacked at the same time value. -/
def c4e : Entry where
  videoDuration := some 10
  actions := [{ time := .num 2, title := some 1 }, { time := .num 2, title := some 2 }]
  pauses := [{ time := .num 2, duration := 1 }, { time := .num 2, duration := 2 }]

/-- Playing `c4e` at the coincident time 2. -/
def c4p : PL where
  list := [c4e]
  preloadIndex := 1
  current := some { index := some 0, videoTime := 2, actionIndex := some 0, pauseIndex := some 0 }

theorem c4_coincident_order_witness :
    (run 10 c4p (Call.execE c4e (EvTime.num 2))).2 ++
      (drain ((duePauses c4e (some 0) (EvTime.num 2)).length + 1) 12
        (run 10 c4p (Call.execE c4e (EvTime.num 2))).1).2 =
    (dueActIdxs c4e (some 0) (EvTime.num 2)).map (Ev.action (some 0)) ++
      (duePauseIdxs c4e (some 0) (EvTime.num 2)).flatMap
        (fun i => [Ev.pauseCmd, Ev.pauseStartE (some 0) i, Ev.pauseEndE (some 0) i]) ++
      [Ev.playCmd] :=
  c4_coincident_order 0 c4e 0 0 2 c4p
    { index := some 0, videoTime := 2, actionIndex := some 0, pauseIndex := some 0 }
    8 (by decide) (by decide) rfl rfl rfl rfl rfl rfl rfl

theorem c4_coincident_order_value :
    (run 10 c4p (Call.execE c4e (EvTime.num 2))).2 ++
      (drain ((duePauses c4e (some 0) (EvTime.num 2)).length + 1) 12
        (run 10 c4p (Call.execE c4e (EvTime.num 2))).1).2 =
      [Ev.action (some 0) 0, Ev.action (some 0) 1,
       Ev.pauseCmd, Ev.pauseStartE (some 0) 0, Ev.pauseEndE (some 0) 0,
       Ev.pauseCmd, Ev.pauseStartE (some 0) 1, Ev.pauseEndE (some 0) 1,
       Ev.playCmd] := by
  decide

/-- **C10** — While a pause is active, the due-event executor is a
complete no-op: the state (cursors, active pause, timers) is returned
unchanged and no event or playback command is emitted, whatever entry
and time it is invoked with. -/
theorem c10_executor_noop_during_pause (fuel : Nat) (p : PL) (e : Entry)
    (t : EvTime) (ap : ActivePause) (hap : p.activePause = some ap) :
    run fuel p (Call.execE e t) = (p, []) := by
  cases fuel with
  | zero => rfl
  | succ n => simp only [run, hap]

/-- The pause of the C10 scenario. -/
def c10pz : Pause where
  time := .num 1
  duration := 2

/-- A clip whose pause at time 1 is currently active. -/
def c10e : Entry where
  videoDuration := some 5
  actions := [{ time := .num 1 }]
  pauses := [c10pz]

/-- Mid-pause state: the executor must ignore any invocation. -/
def c10p : PL where
  list := [c10e]
  preloadIndex := 1
  current := some { index := some 0, videoTime := 1, actionIndex := some 0, pauseIndex := some 1 }
  activePause := some ⟨c10e, c10pz, 2⟩

theorem c10_executor_noop_witness :
    run 10 c10p (Call.execE c10e (EvTime.num 1)) = (c10p, []) :=
  c10_executor_noop_during_pause 10 c10p c10e (EvTime.num 1) ⟨c10e, c10pz, 2⟩ rfl

/-- **C6** — Per-clip total duration: for an in-range index whose entry
has a known raw duration `d`, `durationIndex` is `d` plus the sum of
all the entry's pause durations; while the duration is unknown the
result is the explicit `none`, not a number. -/
theorem c6_durationIndex_spec (p : PL) (i : Nat) (e : Entry)
    (he : p.list.get? i = some e) :
    (∀ d, e.videoDuration = some d →
       durationIndex p i = some (d + (e.pauses.map (·.duration)).sum)) ∧
    (e.videoDuration = none → durationIndex p i = none) := by
  constructor
  · intro d hd
    simp only [durationIndex, he, hd]
  · intro hd
    simp only [durationIndex, he, hd]

/-- A clip of raw duration 10 with 2s and 3s pauses. -/
def c6e : Entry where
  videoDuration := some 10
  pauses := [{ time := .num 1, duration := 2 }, { time := .num 3, duration := 3 }]

/-- A playlist holding just `c6e`. -/
def c6p : PL where
  list := [c6e]

theorem c6_durationIndex_witness :
    (∀ d, c6e.videoDuration = some d →
       durationIndex c6p 0 = some (d + (c6e.pauses.map (·.duration)).sum)) ∧
    (c6e.videoDuration = none → durationIndex c6p 0 = none) :=
  c6_durationIndex_spec c6p 0 c6e rfl

theorem c6_durationIndex_value : durationIndex c6p 0 = some 15 := by
  decide

end VideoPlaylist
